import Mathlib

/-!
# Verification of the High-Concurrency-Cache-System eviction engines

This file gives a shallow embedding of the cache engines and supporting
components of the repository (`Lru.h`, `Lfu.h`, `Arc.h`, `ArcLru.h`,
`ArcLfu.h`, `SingleFlight.h`, `consistentHash.cpp`, `cachegroup.h`) and
proves or refutes the specification claims about them.

Modelling conventions:
* C++ `int` values are modelled as unbounded `Int`, except where the code's
  behaviour depends on the `INT_MAX` sentinel (the LFU `updateMinFreq`
  recomputation); there, frequency increments carry an explicit
  undefined-behaviour check at `INTMAX`, because incrementing a C++ `int`
  past `INT_MAX` is undefined behaviour.
* Heap nodes (`Node<Key,Value>`) are modelled by identifiers (`Nat`) drawn
  from a counter, with a store `nodes : Nat → NodeData K V`; this captures
  the aliasing between the key maps and the intrusive linked lists.
* `std::unordered_map` is modelled as an association list; iteration order
  only matters for `updateMinFreq`, whose result (a minimum) is
  order-independent.
* Undefined behaviour (null dereference, detached-node unlink, signed
  overflow) sets a `ub` flag; once the flag is set every operation freezes
  the state, reflecting that the C++ program has no defined continuation.
-/

/-- Association-list lookup, mirroring `std::unordered_map::find`. -/
def lookupA {K : Type} [DecidableEq K] {A : Type} : List (K × A) → K → Option A
  | [], _ => none
  | (k, a) :: rest, q => if q = k then some a else lookupA rest q

/-- Association-list insert-or-assign, mirroring `map[key] = value`. -/
def insertA {K : Type} [DecidableEq K] {A : Type} : List (K × A) → K → A → List (K × A)
  | [], q, a => [(q, a)]
  | (k, b) :: rest, q, a => if q = k then (q, a) :: rest else (k, b) :: insertA rest q a

/-- Association-list erase, mirroring `map.erase(key)`. -/
def eraseA {K : Type} [DecidableEq K] {A : Type} : List (K × A) → K → List (K × A)
  | [], _ => []
  | (k, b) :: rest, q => if q = k then rest else (k, b) :: eraseA rest q

/-- The data carried by a `Node<Key,Value>`: key, value and frequency
(`Node.h`; frequency initialised to 1 by the constructor). -/
structure NodeData (K V : Type) where
  key : K
  val : V
  freq : Int
  deriving DecidableEq

/-- `INT_MAX` for 32-bit `int`, used by `updateMinFreq`. -/
def INTMAX : Int := 2147483647

/-! ## The `Lru` engine (`Lru.h`)

State of one `Lru<Key,Value>` instance.  `listL` is the intrusive linked
list front-to-back (LRU at the head, MRU at the tail), `cacheMap` the
key-to-node map, `size` the engine's own counter.  The `ub` flag records
that the C++ code performed undefined behaviour (dereferencing the null
result of `removeFront`, or unlinking a node that is not in the list,
which follows a null `next` pointer in `LinkedList::remove`). -/
structure LruState (K V : Type) where
  capacity : Int
  size : Int
  listL : List Nat
  nodes : Nat → NodeData K V
  cacheMap : List (K × Nat)
  nextId : Nat
  ub : Bool

namespace Lru

variable {K V : Type} [DecidableEq K] [Inhabited K] [Inhabited V]

/-- `Lru::Lru(int cap)`: empty list, size 0. -/
def init (cap : Int) : LruState K V :=
  { capacity := cap, size := 0, listL := [],
    nodes := fun _ => ⟨default, default, 1⟩, cacheMap := [], nextId := 0, ub := false }

/-- `Lru::insertBack(const Key&, const Value&)`: `++size`, allocate a fresh
node (frequency 1), append at the tail, record in the map. -/
def insertBackNew (s : LruState K V) (k : K) (v : V) : LruState K V :=
  { s with size := s.size + 1,
           nodes := fun i => if i = s.nextId then ⟨k, v, 1⟩ else s.nodes i,
           listL := s.listL ++ [s.nextId],
           cacheMap := insertA s.cacheMap k s.nextId,
           nextId := s.nextId + 1 }

/-- `Lru::insertBack(LruNodePtr)`: `++size`, append the existing node,
re-record it in the map. -/
def insertBackNode (s : LruState K V) (nid : Nat) : LruState K V :=
  { s with size := s.size + 1,
           listL := s.listL ++ [nid],
           cacheMap := insertA s.cacheMap (s.nodes nid).key nid }

/-- `Lru::removelru()`: pop the front of the list and erase its key from the
map, `--size`.  `LinkedList::removeFront` returns `nullptr` on an empty
list and `removelru` dereferences it (`node->getKey()`) unconditionally. -/
def removelru (s : LruState K V) : LruState K V :=
  match s.listL with
  | [] => { s with ub := true }
  | f :: rest =>
      { s with listL := rest,
               cacheMap := eraseA s.cacheMap (s.nodes f).key,
               size := s.size - 1 }

/-- `Lru::put`: on hit, unlink the mapped node; on miss with
`size >= capacity`, evict; in all cases append a freshly allocated node. -/
def put (s : LruState K V) (k : K) (v : V) : LruState K V :=
  if s.ub then s else
  match lookupA s.cacheMap k with
  | some nid =>
      if s.listL.contains nid then
        insertBackNew { s with listL := s.listL.erase nid } k v
      else { s with ub := true }
  | none =>
      let s' := if s.size ≥ s.capacity then removelru s else s
      if s'.ub then s' else insertBackNew s' k v

/-- `Lru::get`: on hit, read the value, unlink the node and re-append it
(`insertBack(node)`); on miss return `Value()`. -/
def get (s : LruState K V) (k : K) : V × LruState K V :=
  if s.ub then (default, s) else
  match lookupA s.cacheMap k with
  | some nid =>
      if s.listL.contains nid then
        ((s.nodes nid).val, insertBackNode { s with listL := s.listL.erase nid } nid)
      else ((s.nodes nid).val, { s with ub := true })
  | none => (default, s)

/-- `Lru::remove`: on hit, unlink the node from the list.  The map entry is
not erased and `size` is not decremented. -/
def remove (s : LruState K V) (k : K) : LruState K V :=
  if s.ub then s else
  match lookupA s.cacheMap k with
  | some nid =>
      if s.listL.contains nid then { s with listL := s.listL.erase nid }
      else { s with ub := true }
  | none => s

/-- `Lru::contains`: a map lookup. -/
def contains (s : LruState K V) (k : K) : Bool :=
  (lookupA s.cacheMap k).isSome

/-- `Lru::getFrequency`: the mapped node's frequency, or 0 when absent. -/
def getFrequency (s : LruState K V) (k : K) : Int :=
  match lookupA s.cacheMap k with
  | some nid => (s.nodes nid).freq
  | none => 0

/-- `Lru::setFrequency`: set the mapped node's frequency when present. -/
def setFrequency (s : LruState K V) (k : K) (f : Int) : LruState K V :=
  match lookupA s.cacheMap k with
  | some nid =>
      { s with nodes := fun i => if i = nid then { s.nodes i with freq := f } else s.nodes i }
  | none => s

end Lru

/-! ## The `LruK` engine (`Lru.h`, `class LruK`)

An `LruK` is its base `Lru` (the hot cache) plus a cold `Lru` and a
promotion threshold. -/
structure LruKState (K V : Type) where
  hot : LruState K V
  promotionThresholds : Int
  coldCache : LruState K V

namespace LruK

variable {K V : Type} [DecidableEq K] [Inhabited K] [Inhabited V]

/-- `LruK::LruK(cap, coldCacheSize, kVal)`. -/
def init (cap coldCacheSize kVal : Int) : LruKState K V :=
  { hot := Lru.init cap, promotionThresholds := kVal, coldCache := Lru.init coldCacheSize }

/-- `LruK::put`: delegate to the hot cache on a hot hit; otherwise read the
cold frequency, promote when it reaches the threshold, else store cold and
bump the cold frequency. -/
def put (s : LruKState K V) (k : K) (v : V) : LruKState K V :=
  if Lru.contains s.hot k then { s with hot := Lru.put s.hot k v }
  else
    let keyFreq := Lru.getFrequency s.coldCache k
    if keyFreq ≥ s.promotionThresholds then
      { s with coldCache := Lru.remove s.coldCache k, hot := Lru.put s.hot k v }
    else
      let cold' := Lru.put s.coldCache k v
      { s with coldCache := Lru.setFrequency cold' k (keyFreq + 1) }

/-- `LruK::get`: hot hit delegates; a cold hit promotes at the threshold
(re-reading through the hot cache) or bumps the cold frequency. -/
def get (s : LruKState K V) (k : K) : V × LruKState K V :=
  if Lru.contains s.hot k then
    let p := Lru.get s.hot k
    (p.1, { s with hot := p.2 })
  else if Lru.contains s.coldCache k then
    let keyFreq := Lru.getFrequency s.coldCache k
    let p := Lru.get s.coldCache k
    if keyFreq ≥ s.promotionThresholds then
      let cold' := Lru.remove p.2 k
      let hot' := Lru.put s.hot k p.1
      let q := Lru.get hot' k
      (q.1, { s with coldCache := cold', hot := q.2 })
    else
      (p.1, { s with coldCache := Lru.setFrequency p.2 k (keyFreq + 1) })
  else (default, s)

end LruK

/-! ## The `Lfu` engine (`Lfu.h`)

`buckets` models `freqList` (frequency to linked list of nodes,
front-to-back); `bucketKeys` records which frequencies have an allocated
`LinkedList` (the `unordered_map` keys).  Accessing `freqList[f]` for an
unallocated `f` through `operator[]` default-constructs a null
`unique_ptr` and immediately dereferences it — undefined behaviour, so
those accesses set `ub`. -/
structure LfuState (K V : Type) where
  size : Int
  minFreq : Int
  cap : Int
  nodes : Nat → NodeData K V
  mp : List (K × Nat)
  buckets : Int → List Nat
  bucketKeys : List Int
  nextId : Nat
  ub : Bool

namespace Lfu

variable {K V : Type} [DecidableEq K] [Inhabited K] [Inhabited V]

/-- `Lfu::Lfu(int capacity)`: `minFreq = 1` and bucket 1 allocated. -/
def init (capacity : Int) : LfuState K V :=
  { size := 0, minFreq := 1, cap := capacity,
    nodes := fun _ => ⟨default, default, 1⟩, mp := [],
    buckets := fun _ => [], bucketKeys := [1], nextId := 0, ub := false }

/-- `Lfu::updateMinFreq()`: `minFreq = INT_MAX`, then the minimum over the
allocated buckets that are non-empty. -/
def updateMinFreq (s : LfuState K V) : LfuState K V :=
  { s with minFreq :=
      s.bucketKeys.foldl (fun acc f => if s.buckets f = [] then acc else min acc f) INTMAX }

/-- `Lfu::removeNode`: `freqList[node->getFrequency()]->remove(node)`.
Undefined behaviour if the bucket is unallocated (null `unique_ptr`) or the
node is not in that list. -/
def removeNode (s : LfuState K V) (nid : Nat) : LfuState K V :=
  let f := (s.nodes nid).freq
  if f ∈ s.bucketKeys then
    if nid ∈ s.buckets f then
      { s with buckets := fun g => if g = f then (s.buckets f).erase nid else s.buckets g }
    else { s with ub := true }
  else { s with ub := true }

/-- `Lfu::insertNode`: allocate the bucket for the node's frequency when
absent, then append the node. -/
def insertNode (s : LfuState K V) (nid : Nat) : LfuState K V :=
  let f := (s.nodes nid).freq
  { s with
    bucketKeys := if f ∈ s.bucketKeys then s.bucketKeys else s.bucketKeys ++ [f],
    buckets := fun g => if g = f then s.buckets f ++ [nid] else s.buckets g }

/-- `Lfu::updateNode`: detach, `setFrequency(freq + 1)`, re-insert.
Incrementing past `INT_MAX` is signed-overflow undefined behaviour. -/
def updateNode (s : LfuState K V) (nid : Nat) : LfuState K V :=
  let s1 := removeNode s nid
  if s1.ub then s1 else
  if (s1.nodes nid).freq + 1 > INTMAX then { s1 with ub := true } else
  let s2 := { s1 with nodes := fun i =>
      if i = nid then { s1.nodes nid with freq := (s1.nodes nid).freq + 1 } else s1.nodes i }
  insertNode s2 nid

/-- `Lfu::removeLFU`: pop the front of `freqList[minFreq]` and erase its
key; a null pop (`removeFront` on an empty list) is dereferenced by
`removeLFUHook(node->getFrequency())`. -/
def removeLFU (s : LfuState K V) : LfuState K V :=
  if s.minFreq ∈ s.bucketKeys then
    match s.buckets s.minFreq with
    | [] => { s with ub := true }
    | nid :: rest =>
        { s with buckets := fun g => if g = s.minFreq then rest else s.buckets g,
                 mp := eraseA s.mp (s.nodes nid).key }
  else { s with ub := true }

/-- `Lfu::insertNewNode`: insert the fresh node (frequency 1) into its
bucket, allocating it when absent, then set `minFreq = 1`. -/
def insertNewNode (s : LfuState K V) (nid : Nat) : LfuState K V :=
  let f := (s.nodes nid).freq
  { s with
    bucketKeys := if f ∈ s.bucketKeys then s.bucketKeys else s.bucketKeys ++ [f],
    buckets := fun g => if g = f then s.buckets f ++ [nid] else s.buckets g,
    minFreq := 1 }

/-- `Lfu::put`: early return when `cap <= 0`; on hit promote the frequency,
set the value and recompute `minFreq`; on miss evict at `size == cap`, then
allocate and record a fresh node with frequency 1. -/
def put (s : LfuState K V) (k : K) (v : V) : LfuState K V :=
  if s.cap ≤ 0 then s else
  if s.ub then s else
  match lookupA s.mp k with
  | some nid =>
      let s1 := updateNode s nid
      if s1.ub then s1 else
      let s2 := { s1 with nodes := fun i =>
          if i = nid then { s1.nodes nid with val := v } else s1.nodes i }
      updateMinFreq s2
  | none =>
      let s1 := if s.size = s.cap then
                  let t := removeLFU s
                  if t.ub then t else { t with size := t.size - 1 }
                else s
      if s1.ub then s1 else
      let nid := s1.nextId
      let s2 := { s1 with
          nodes := fun i => if i = nid then ⟨k, v, 1⟩ else s1.nodes i,
          nextId := nid + 1 }
      let s3 := insertNewNode s2 nid
      { s3 with mp := insertA s3.mp k nid, size := s3.size + 1 }

/-- `Lfu::get`: on miss return `Value()`; on hit promote the frequency and,
when the promoted node vacated the `minFreq` bucket, `minFreq++`
(`freqList[minFreq]` on the right of `&&` only evaluates after the
frequency test passes). -/
def get (s : LfuState K V) (k : K) : V × LfuState K V :=
  if s.ub then (default, s) else
  match lookupA s.mp k with
  | none => (default, s)
  | some nid =>
      let s1 := updateNode s nid
      if s1.ub then (default, s1) else
      let s2 := if (s1.nodes nid).freq - 1 = s1.minFreq then
                  if s1.minFreq ∈ s1.bucketKeys then
                    if s1.buckets s1.minFreq = [] then { s1 with minFreq := s1.minFreq + 1 }
                    else s1
                  else { s1 with ub := true }
                else s1
      ((s2.nodes nid).val, s2)

end Lfu

/-- One public `Lfu` operation. -/
inductive LfuOp (K V : Type) where
  | put (k : K) (v : V)
  | get (k : K)

/-- Run a sequence of public `Lfu` operations. -/
def runLfu {K V : Type} [DecidableEq K] [Inhabited K] [Inhabited V] :
    List (LfuOp K V) → LfuState K V → LfuState K V
  | [], s => s
  | LfuOp.put k v :: rest, s => runLfu rest (Lfu.put s k v)
  | LfuOp.get k :: rest, s => runLfu rest (Lfu.get s k).2


/-! ## The LFU structural invariant (used for claim C6)

`LfuCore` collects the well-formedness facts about the maps, buckets and
node store that the `Lfu` code maintains between public operations;
`LfuGood` adds the minimum-frequency facts.  `LfuOK` is the disjunction
with the frozen (post-undefined-behaviour) states. -/
structure LfuCore {K V : Type} [DecidableEq K] (s : LfuState K V) : Prop where
  noUb : s.ub = false
  keyNodup : (s.mp.map Prod.fst).Nodup
  mpSound : ∀ k nid, lookupA s.mp k = some nid →
      (s.nodes nid).key = k ∧ nid ∈ s.buckets (s.nodes nid).freq
  bucketSound : ∀ f nid, nid ∈ s.buckets f →
      (s.nodes nid).freq = f ∧ lookupA s.mp (s.nodes nid).key = some nid
  freqBounds : ∀ f, s.buckets f ≠ [] → 1 ≤ f ∧ f ≤ INTMAX
  bucketNodup : ∀ f, (s.buckets f).Nodup
  bucketAlloc : ∀ f, s.buckets f ≠ [] → f ∈ s.bucketKeys
  idFresh : ∀ f nid, nid ∈ s.buckets f → nid < s.nextId
  sizeEq : s.size = s.mp.length

/-- `LfuCore` plus correctness of `minFreq`: it is a lower bound on the
non-empty buckets, its own bucket is non-empty whenever the map is, and it
still holds its initial value 1 while the map is empty. -/
structure LfuGood {K V : Type} [DecidableEq K] (s : LfuState K V)
    extends LfuCore s : Prop where
  minFreqLB : ∀ f, s.buckets f ≠ [] → s.minFreq ≤ f
  minFreqMem : s.mp ≠ [] → s.buckets s.minFreq ≠ []
  minFreqEmpty : s.mp = [] → s.minFreq = 1

attribute [ext] LfuState

/-- A state is either frozen after undefined behaviour or well-formed. -/
def LfuOK {K V : Type} [DecidableEq K] (s : LfuState K V) : Prop :=
  s.ub = true ∨ LfuGood s


/-- The state built by the tail of `Lfu::put` on a miss: allocate a fresh
node with frequency 1, `insertNewNode` (which sets `minFreq = 1`), record
the node in the map, and `size++`. -/
def Lfu.freshInsertState {K V : Type} [DecidableEq K] (s1 : LfuState K V) (k : K) (v : V) :
    LfuState K V :=
  { s1 with
    nodes := fun i => if i = s1.nextId then ⟨k, v, 1⟩ else s1.nodes i,
    nextId := s1.nextId + 1,
    bucketKeys := if (1 : Int) ∈ s1.bucketKeys then s1.bucketKeys else s1.bucketKeys ++ [1],
    buckets := fun g => if g = 1 then s1.buckets 1 ++ [s1.nextId] else s1.buckets g,
    minFreq := 1,
    mp := insertA s1.mp k s1.nextId,
    size := s1.size + 1 }

/-! ## The consistent hash ring (`consistentHash.cpp` / `consistentHash.h`)

`hashFunction` (`static_cast<int>(std::hash<std::string>{}(key))`) is an
opaque stdlib function, so the model is parametrised by an arbitrary
`h : String → Int`.  The `rebalanceThreshold` (a `double`) and the traffic
counters are carried by the class but never read by `Add`, `Remove` or
`Get`, so they are omitted from the state. -/
structure CHState where
  replicaNum : Int
  minReplica : Int
  maxReplica : Int
  hashRing : List Int
  hashToNode : List (Int × String)
  NodeToReplicaNum : List (String × Int)

namespace consistentHash

/-- `consistentHash::consistentHash`: empty ring and maps. -/
def init (replicanum minreplica maxreplica : Int) : CHState :=
  { replicaNum := replicanum, minReplica := minreplica, maxReplica := maxreplica,
    hashRing := [], hashToNode := [], NodeToReplicaNum := [] }

/-- The loop of `consistentHash::Add`: for each replica index, hash
`node ∥ "-" ∥ i`; on a collision return `false` immediately, keeping the
replicas already inserted; otherwise record position → node and push the
position onto the (unsorted) ring. -/
def AddReplicas (h : String → Int) (node : String) : Nat → Nat → CHState → Bool × CHState
  | 0, _, s => (true, s)
  | m + 1, i, s =>
      let pos := h (node ++ "-" ++ toString i)
      if (lookupA s.hashToNode pos).isSome then (false, s)
      else AddReplicas h node m (i + 1)
        { s with hashToNode := insertA s.hashToNode pos node,
                 hashRing := s.hashRing ++ [pos] }

/-- `consistentHash::Add`: run the replica loop; on success record
node → replicas and sort the ring, on failure return with the partially
mutated state. -/
def Add (h : String → Int) (s : CHState) (node : String) : Bool × CHState :=
  let r := AddReplicas h node s.replicaNum.toNat 0 s
  if r.1 then
    (true, { r.2 with NodeToReplicaNum := insertA r.2.NodeToReplicaNum node s.replicaNum,
                      hashRing := List.insertionSort (· ≤ ·) r.2.hashRing })
  else (false, r.2)

end consistentHash

/-! ## The cache group's miss path (`cachegroup.h`) -/

/-- Observable outcome of one execution of the function that
`CacheGroup::LoadFromPeer` hands to the single-flight coalescer. -/
structure LoadOutcome (V : Type) where
  loaderInvoked : Bool
  peerInvoked : Bool
  result : Option V
  cacheUpdated : Bool

/-- The coalesced function of `CacheGroup::LoadFromPeer`, modelled from
`cachegroup.h` lines 227-249.  `pick` is `⊥` when `PickPeer` returns null
(this node is the owner); otherwise it carries the peer's `Get` result.
`loader` is the value `cacheMissHandler_` would produce.  In the source,
`value` is declared inside `if (peer) { ... }` and the trailing
`return value;` refers to it out of scope, so on the no-peer path the
lambda invokes neither the peer nor the handler and yields no defined
value; that path is modelled as an absent result.  No path of
`LoadFromPeer` or `CacheGroup::Get` writes the local cache (there is no
`cache_->put` in the miss path), so `cacheUpdated` is always false. -/
def LoadFromPeer (V : Type) (pick : Option (Option V)) (loader : Option V) : LoadOutcome V :=
  match pick with
  | some peerRes =>
      match peerRes with
      | some v => ⟨false, true, some v, false⟩
      | none =>
          match loader with
          | some v => ⟨true, true, some v, false⟩
          | none => ⟨true, true, none, false⟩
  | none => ⟨false, false, none, false⟩

/-! ## The single-flight coalescer (`SingleFlight.h`)

`run(key, func)` is modelled as a small-step transition system over a set
`T` of threads, each calling `run` once with its own key and function.
The lines executed under the registry mutex form one atomic step each;
`func()` itself runs outside the lock.  `promises tid` models the task's
`std::promise<Result>`: `none` until `set_value`, then the published
result (itself an `Option R`, since `Result = std::optional<V>`). -/

/-- Program counter of one thread executing `SingleFlight::run`:
`running` is the execution of `func()` (the in-flight window), `publish`
is `promise.set_value`, `cleanup` is the relock-and-erase, `waiting` is a
blocked `future.get()`. -/
inductive SFPhase (R : Type) where
  | start
  | running (tid : Nat)
  | publish (tid : Nat)
  | cleanup (tid : Nat)
  | doneOwner (tid : Nat)
  | waiting (tid : Nat)
  | doneWaiter (tid : Nat) (r : Option R)
  deriving DecidableEq

/-- Static data: each thread's key and the result its `func` returns. -/
structure SFEnv (K R T : Type) where
  key : T → K
  fres : T → Option R

/-- Shared registry state (`map`, the promises) plus every thread's
program counter; `myTask` permanently records the task a thread created. -/
structure SFState (K R T : Type) where
  phase : T → SFPhase R
  mapR : K → Option Nat
  promises : Nat → Option (Option R)
  myTask : T → Option Nat
  nextTask : Nat

/-- All threads about to call `run`; empty registry. -/
def SFState.init (K R T : Type) : SFState K R T :=
  { phase := fun _ => SFPhase.start, mapR := fun _ => none,
    promises := fun _ => none, myTask := fun _ => none, nextTask := 0 }

/-- The task id a thread currently holds the registry entry for:
from task creation until the erase completes. -/
def SFState.owns {K R T : Type} (s : SFState K R T) (t : T) : Option Nat :=
  match s.phase t with
  | SFPhase.running tid => some tid
  | SFPhase.publish tid => some tid
  | SFPhase.cleanup tid => some tid
  | _ => none

/-- `map.find(key) == map.end()` path under the lock: allocate a task,
store it in the registry, unlock, and start executing `func`. -/
def createStep {K R T : Type} [DecidableEq K] [DecidableEq T] (env : SFEnv K R T)
    (s : SFState K R T) (t : T) : SFState K R T :=
  { s with
    phase := fun u => if u = t then SFPhase.running s.nextTask else s.phase u,
    mapR := fun k => if k = env.key t then some s.nextTask else s.mapR k,
    myTask := fun u => if u = t then some s.nextTask else s.myTask u,
    nextTask := s.nextTask + 1 }

/-- A pending task exists: take its handle, unlock, wait on the future. -/
def waitStep {K R T : Type} [DecidableEq T] (s : SFState K R T) (t : T) (tid : Nat) :
    SFState K R T :=
  { s with phase := fun u => if u = t then SFPhase.waiting tid else s.phase u }

/-- `func()` returns (the in-flight window closes). -/
def funcRetStep {K R T : Type} [DecidableEq T] (s : SFState K R T) (t : T) (tid : Nat) :
    SFState K R T :=
  { s with phase := fun u => if u = t then SFPhase.publish tid else s.phase u }

/-- `task->promise.set_value(result)`. -/
def publishStep {K R T : Type} [DecidableEq T] (env : SFEnv K R T)
    (s : SFState K R T) (t : T) (tid : Nat) : SFState K R T :=
  { s with
    promises := fun n => if n = tid then some (env.fres t) else s.promises n,
    phase := fun u => if u = t then SFPhase.cleanup tid else s.phase u }

/-- Relock and `map.erase(key)`; the owner returns its own result. -/
def eraseStep {K R T : Type} [DecidableEq K] [DecidableEq T] (env : SFEnv K R T)
    (s : SFState K R T) (t : T) (tid : Nat) : SFState K R T :=
  { s with
    mapR := fun k => if k = env.key t then none else s.mapR k,
    phase := fun u => if u = t then SFPhase.doneOwner tid else s.phase u }

/-- `future.get()` returns once the promise is fulfilled; the waiter
observes the published result. -/
def waitDoneStep {K R T : Type} [DecidableEq T] (s : SFState K R T) (t : T) (tid : Nat)
    (r : Option R) : SFState K R T :=
  { s with phase := fun u => if u = t then SFPhase.doneWaiter tid r else s.phase u }

/-- One interleaving step of `SingleFlight::run`, following the branches
of the source. -/
inductive SFStep {K R T : Type} [DecidableEq K] [DecidableEq T] (env : SFEnv K R T) :
    SFState K R T → SFState K R T → Prop where
  | create (s : SFState K R T) (t : T) :
      s.phase t = SFPhase.start → s.mapR (env.key t) = none →
      SFStep env s (createStep env s t)
  | subscribe (s : SFState K R T) (t : T) (tid : Nat) :
      s.phase t = SFPhase.start → s.mapR (env.key t) = some tid →
      SFStep env s (waitStep s t tid)
  | finishFunc (s : SFState K R T) (t : T) (tid : Nat) :
      s.phase t = SFPhase.running tid →
      SFStep env s (funcRetStep s t tid)
  | setValue (s : SFState K R T) (t : T) (tid : Nat) :
      s.phase t = SFPhase.publish tid →
      SFStep env s (publishStep env s t tid)
  | eraseKey (s : SFState K R T) (t : T) (tid : Nat) :
      s.phase t = SFPhase.cleanup tid →
      SFStep env s (eraseStep env s t tid)
  | waitValue (s : SFState K R T) (t : T) (tid : Nat) (r : Option R) :
      s.phase t = SFPhase.waiting tid → s.promises tid = some r →
      SFStep env s (waitDoneStep s t tid r)

/-- States reachable from the initial state by interleaving steps. -/
def SFReachable {K R T : Type} [DecidableEq K] [DecidableEq T] (env : SFEnv K R T)
    (s : SFState K R T) : Prop :=
  Relation.ReflTransGen (SFStep env) (SFState.init K R T) s

/-- A thread is executing `func` for its key: the in-flight window. -/
def SFState.inFlight {K R T : Type} (s : SFState K R T) (t : T) : Prop :=
  ∃ tid, s.phase t = SFPhase.running tid

/-- The inductive invariant of the single-flight registry. -/
structure SFInv {K R T : Type} [DecidableEq K] [DecidableEq T] (env : SFEnv K R T)
    (s : SFState K R T) : Prop where
  ownsMap : ∀ t tid, s.owns t = some tid →
      s.mapR (env.key t) = some tid ∧ s.myTask t = some tid
  mapOwned : ∀ k tid, s.mapR k = some tid → ∃ t, s.owns t = some tid ∧ env.key t = k
  taskUnique : ∀ t u tid, s.myTask t = some tid → s.myTask u = some tid → t = u
  taskFresh : ∀ t tid, s.myTask t = some tid → tid < s.nextTask
  phaseTask : ∀ t tid, (s.phase t = SFPhase.running tid ∨ s.phase t = SFPhase.publish tid ∨
      s.phase t = SFPhase.cleanup tid ∨ s.phase t = SFPhase.doneOwner tid) →
      s.myTask t = some tid
  taskPhase : ∀ t tid, s.myTask t = some tid →
      (s.phase t = SFPhase.running tid ∨ s.phase t = SFPhase.publish tid ∨
       s.phase t = SFPhase.cleanup tid ∨ s.phase t = SFPhase.doneOwner tid)
  promiseUnset : ∀ t tid, (s.phase t = SFPhase.running tid ∨ s.phase t = SFPhase.publish tid) →
      s.promises tid = none
  promiseOwner : ∀ tid r, s.promises tid = some r → ∃ u, s.myTask u = some tid ∧
      r = env.fres u ∧ (s.phase u = SFPhase.cleanup tid ∨ s.phase u = SFPhase.doneOwner tid)
  waitTask : ∀ t tid, s.phase t = SFPhase.waiting tid → ∃ u, s.myTask u = some tid ∧
      env.key u = env.key t
  doneWaitTask : ∀ t tid r, s.phase t = SFPhase.doneWaiter tid r →
      (∃ u, s.myTask u = some tid ∧ env.key u = env.key t ∧ r = env.fres u) ∧
      s.promises tid = some r

/-- A concrete two-thread environment for exercising the single-flight
model: both threads ask for key 0, and each load produces `some 7`. -/
def sfEnvW : SFEnv Nat Nat Bool :=
  { key := fun _ => 0, fres := fun _ => some 7 }

/-! ## The ARC recency half (`ArcLru.h`)

`listL`/`cacheMap` are the live list and map, `ghostL`/`ghostMap` the
ghost list and map.  Note the source's `put` falls through: after
`updateNodeValue` on a resident key (or a ghost removal) it still calls
`insertNewMain`, which allocates a second node for the key and overwrites
the promotion flag with `insertNewMain`'s constant `false`. -/
structure ArcLruState (K V : Type) where
  capacity : Int
  promotionThreshold : Int
  listL : List Nat
  cacheMap : List (K × Nat)
  ghostL : List Nat
  ghostMap : List (K × Nat)
  nodes : Nat → NodeData K V
  nextId : Nat
  ub : Bool

namespace ArcLru

variable {K V : Type} [DecidableEq K] [Inhabited K] [Inhabited V]

/-- `ArcLru::ArcLru(cap, threshold)`. -/
def init (cap threshold : Int) : ArcLruState K V :=
  { capacity := cap, promotionThreshold := threshold, listL := [], cacheMap := [],
    ghostL := [], ghostMap := [], nodes := fun _ => ⟨default, default, 1⟩,
    nextId := 0, ub := false }

/-- `ArcLru::updateNode`: unlink from the live list (undefined behaviour
if the node is not in it), `setFrequency(freq+1)` (undefined behaviour on
`int` overflow), re-append at the tail. -/
def updateNode (s : ArcLruState K V) (nid : Nat) : ArcLruState K V :=
  if nid ∈ s.listL then
    let s1 := { s with listL := s.listL.erase nid }
    if (s1.nodes nid).freq + 1 > INTMAX then { s1 with ub := true } else
    { s1 with
      nodes := fun i => if i = nid then { s1.nodes nid with freq := (s1.nodes nid).freq + 1 }
               else s1.nodes i,
      listL := s1.listL ++ [nid] }
  else { s with ub := true }

/-- `ArcLru::updateNodeValue`: set the value, `updateNode`, report whether
the frequency reached the promotion threshold. -/
def updateNodeValue (s : ArcLruState K V) (nid : Nat) (v : V) : Bool × ArcLruState K V :=
  let s1 := { s with nodes := fun i => if i = nid then { s.nodes nid with val := v }
              else s.nodes i }
  let s2 := updateNode s1 nid
  if s2.ub then (false, s2)
  else (decide (s2.promotionThreshold ≤ (s2.nodes nid).freq), s2)

/-- `ArcLru::removeOldestGhost`: pop the ghost front (if any) and erase
its key. -/
def removeOldestGhost (s : ArcLruState K V) : ArcLruState K V :=
  match s.ghostL with
  | [] => s
  | f :: rest => { s with ghostL := rest, ghostMap := eraseA s.ghostMap (s.nodes f).key }

/-- `ArcLru::insertGhost`: append the node to the ghost list, record it in
the ghost map, reset its frequency to 1. -/
def insertGhost (s : ArcLruState K V) (nid : Nat) : ArcLruState K V :=
  { s with ghostL := s.ghostL ++ [nid],
           ghostMap := insertA s.ghostMap (s.nodes nid).key nid,
           nodes := fun i => if i = nid then { s.nodes i with freq := 1 } else s.nodes i }

/-- `ArcLru::evictMain`: pop the live front (silently returning when the
list is empty), erase its key, trim the ghost list at capacity, move the
node to the ghost side. -/
def evictMain (s : ArcLruState K V) : ArcLruState K V :=
  match s.listL with
  | [] => s
  | nid :: rest =>
      let s1 := { s with listL := rest, cacheMap := eraseA s.cacheMap (s.nodes nid).key }
      let s2 := if (s1.ghostL.length : Int) ≥ s1.capacity then removeOldestGhost s1 else s1
      insertGhost s2 nid

/-- `ArcLru::insertNewMain`: evict when the list is full, then append a
fresh node with frequency 1; always returns false. -/
def insertNewMain (s : ArcLruState K V) (k : K) (v : V) : Bool × ArcLruState K V :=
  let s1 := if (s.listL.length : Int) ≥ s.capacity then evictMain s else s
  (false, { s1 with
    nodes := fun i => if i = s1.nextId then ⟨k, v, 1⟩ else s1.nodes i,
    listL := s1.listL ++ [s1.nextId],
    cacheMap := insertA s1.cacheMap k s1.nextId,
    nextId := s1.nextId + 1 })

/-- `ArcLru::removeGhost`: unlink from the ghost list (undefined behaviour
if absent from it) and erase the key from the ghost map. -/
def removeGhost (s : ArcLruState K V) (nid : Nat) : ArcLruState K V :=
  if nid ∈ s.ghostL then
    { s with ghostL := s.ghostL.erase nid, ghostMap := eraseA s.ghostMap (s.nodes nid).key }
  else { s with ub := true }

/-- `ArcLru::checkGhost`. -/
def checkGhost (s : ArcLruState K V) (k : K) : Bool × ArcLruState K V :=
  if s.ub then (false, s) else
  match lookupA s.ghostMap k with
  | some nid => (true, removeGhost s nid)
  | none => (false, s)

/-- `ArcLru::increaseCapacity`. -/
def increaseCapacity (s : ArcLruState K V) : ArcLruState K V :=
  if s.ub then s else { s with capacity := s.capacity + 1 }

/-- `ArcLru::decreaseCapacity`: refuse at capacity 1; otherwise shrink and
evict/trim down to the new capacity. -/
def decreaseCapacity (s : ArcLruState K V) : Bool × ArcLruState K V :=
  if s.ub then (false, s) else
  if s.capacity > 1 then
    let s1 := { s with capacity := s.capacity - 1 }
    let s2 := if (s1.listL.length : Int) > s1.capacity then evictMain s1 else s1
    let s3 := if (s2.ghostL.length : Int) > s2.capacity then removeOldestGhost s2 else s2
    (true, s3)
  else (false, s)

/-- `ArcLru::put`: on a live hit run `updateNodeValue`, on a ghost hit drop
the ghost entry, then always fall through to `insertNewMain`, which
overwrites the flag with false. -/
def put (s : ArcLruState K V) (k : K) (v : V) : Bool × ArcLruState K V :=
  if s.ub then (false, s) else
  let s1 := match lookupA s.cacheMap k with
    | some nid => (updateNodeValue s nid v).2
    | none => match lookupA s.ghostMap k with
      | some nid => removeGhost s nid
      | none => s
  if s1.ub then (false, s1) else insertNewMain s1 k v

/-- `ArcLru::get`: on a live hit read the value and bump via
`updateNodeValue` (returning the promotion flag); on a ghost hit
resurrect the ghost's stale value into the live list but return false. -/
def get (s : ArcLruState K V) (k : K) : Bool × V × Bool × ArcLruState K V :=
  if s.ub then (false, default, false, s) else
  match lookupA s.cacheMap k with
  | some nid =>
      let v := (s.nodes nid).val
      let p := updateNodeValue s nid v
      (true, v, p.1, p.2)
  | none => match lookupA s.ghostMap k with
    | some nid =>
        let v := (s.nodes nid).val
        let s1 := removeGhost s nid
        let s2 := if s1.ub then s1 else (insertNewMain s1 k v).2
        (false, v, false, s2)
    | none => (false, default, false, s)

end ArcLru

/-! ## The ARC frequency half (`ArcLfu.h`)

`buckets f` is the frequency list `freqList[f]`; `bucketKeys` records which
frequencies have an allocated `LinkedList` (accessing `freqList[f]` through
`operator[]` when `f` is unallocated yields a null `unique_ptr` and the
subsequent method call is undefined behaviour, modelled by `ub := true`). -/
structure ArcLfuState (K V : Type) where
  capacity : Int
  promotionThreshold : Int
  cacheMap : List (K × Nat)
  ghostMap : List (K × Nat)
  ghostL : List Nat
  buckets : Int → List Nat
  bucketKeys : List Int
  minFreq : Int
  nodes : Nat → NodeData K V
  nextId : Nat
  ub : Bool

namespace ArcLfu

variable {K V : Type} [DecidableEq K] [Inhabited K] [Inhabited V]

/-- `ArcLfu::ArcLfu(cap, threshold)`: `minFreq = 1` and `freqList[1]` is
allocated. -/
def init (cap threshold : Int) : ArcLfuState K V :=
  { capacity := cap, promotionThreshold := threshold, cacheMap := [], ghostMap := [],
    ghostL := [], buckets := fun _ => [], bucketKeys := [1], minFreq := 1,
    nodes := fun _ => ⟨default, default, 1⟩, nextId := 0, ub := false }

/-- `ArcLfu::updateMinFreq`: fold `min` over the allocated non-empty
frequency lists starting from `INT_MAX`. -/
def updateMinFreq (s : ArcLfuState K V) : ArcLfuState K V :=
  { s with minFreq :=
      s.bucketKeys.foldl (fun m f => if s.buckets f = [] then m else min m f) INTMAX }

/-- `ArcLfu::updateNode`: remove from the current frequency list
(undefined behaviour when that list is unallocated or the node absent),
bump the frequency (undefined behaviour on `int` overflow), allocate the
next list if needed, append there. -/
def updateNode (s : ArcLfuState K V) (nid : Nat) : ArcLfuState K V :=
  let f := (s.nodes nid).freq
  if f ∈ s.bucketKeys then
    if nid ∈ s.buckets f then
      let s1 := { s with buckets := fun g => if g = f then (s.buckets f).erase nid
                  else s.buckets g }
      if f + 1 > INTMAX then { s1 with ub := true } else
      { s1 with
        nodes := fun i => if i = nid then { s1.nodes nid with freq := f + 1 } else s1.nodes i,
        bucketKeys := if f + 1 ∈ s1.bucketKeys then s1.bucketKeys else s1.bucketKeys ++ [f + 1],
        buckets := fun g => if g = f + 1 then s1.buckets (f + 1) ++ [nid] else s1.buckets g }
    else { s with ub := true }
  else { s with ub := true }

/-- `ArcLfu::removeOldestGhost`. -/
def removeOldestGhost (s : ArcLfuState K V) : ArcLfuState K V :=
  match s.ghostL with
  | [] => s
  | f :: rest => { s with ghostL := rest, ghostMap := eraseA s.ghostMap (s.nodes f).key }

/-- `ArcLfu::insertGhost`. -/
def insertGhost (s : ArcLfuState K V) (nid : Nat) : ArcLfuState K V :=
  { s with ghostL := s.ghostL ++ [nid],
           ghostMap := insertA s.ghostMap (s.nodes nid).key nid,
           nodes := fun i => if i = nid then { s.nodes i with freq := 1 } else s.nodes i }

/-- `ArcLfu::removeGhost` (undefined behaviour if the node is not on the
ghost list). -/
def removeGhost (s : ArcLfuState K V) (nid : Nat) : ArcLfuState K V :=
  if nid ∈ s.ghostL then
    { s with ghostL := s.ghostL.erase nid, ghostMap := eraseA s.ghostMap (s.nodes nid).key }
  else { s with ub := true }

/-- `ArcLfu::evictMain`: `freqList[minFreq]->removeFront()` (undefined
behaviour when `freqList[minFreq]` is unallocated); a null pop returns
silently, otherwise the key is erased, the ghost list trimmed when its
size exceeds capacity, and the node moved to the ghost side. -/
def evictMain (s : ArcLfuState K V) : ArcLfuState K V :=
  if s.minFreq ∈ s.bucketKeys then
    match s.buckets s.minFreq with
    | [] => s
    | nid :: rest =>
        let s1 := { s with
          buckets := fun g => if g = s.minFreq then rest else s.buckets g,
          cacheMap := eraseA s.cacheMap (s.nodes nid).key }
        let s2 := if (s1.ghostL.length : Int) > s1.capacity then removeOldestGhost s1 else s1
        insertGhost s2 nid
  else { s with ub := true }

/-- `ArcLfu::insertNewMain`: evict when the map is full, then append a
fresh node to `freqList[1]` (undefined behaviour if that list is
unallocated), record it in the map and reset `minFreq := 1`. -/
def insertNewMain (s : ArcLfuState K V) (k : K) (v : V) : ArcLfuState K V :=
  let s1 := if (s.cacheMap.length : Int) ≥ s.capacity then evictMain s else s
  if s1.ub then s1 else
  if (1 : Int) ∈ s1.bucketKeys then
    { s1 with
      nodes := fun i => if i = s1.nextId then ⟨k, v, 1⟩ else s1.nodes i,
      buckets := fun g => if g = 1 then s1.buckets 1 ++ [s1.nextId] else s1.buckets g,
      cacheMap := insertA s1.cacheMap k s1.nextId,
      minFreq := 1, nextId := s1.nextId + 1 }
  else { s1 with ub := true }

/-- `ArcLfu::checkGhost`. -/
def checkGhost (s : ArcLfuState K V) (k : K) : Bool × ArcLfuState K V :=
  if s.ub then (false, s) else
  match lookupA s.ghostMap k with
  | some nid => (true, removeGhost s nid)
  | none => (false, s)

/-- `ArcLfu::increaseCapacity`. -/
def increaseCapacity (s : ArcLfuState K V) : ArcLfuState K V :=
  if s.ub then s else { s with capacity := s.capacity + 1 }

/-- `ArcLfu::decreaseCapacity`. -/
def decreaseCapacity (s : ArcLfuState K V) : Bool × ArcLfuState K V :=
  if s.ub then (false, s) else
  if s.capacity > 1 then
    let s1 := { s with capacity := s.capacity - 1 }
    let s2 := if (s1.cacheMap.length : Int) > s1.capacity then evictMain s1 else s1
    let s3 := if (s2.ghostL.length : Int) > s2.capacity then removeOldestGhost s2 else s2
    (true, s3)
  else (false, s)

/-- The `minFreq` maintenance shared by the hit branches of `put` and
`get`: when the bumped node vacated the `minFreq` list, recompute it
(`freqList[minFreq]` is read through `operator[]`, undefined behaviour
when unallocated). -/
def fixMinFreq (s : ArcLfuState K V) (nid : Nat) : ArcLfuState K V :=
  if (s.nodes nid).freq - 1 = s.minFreq then
    if s.minFreq ∈ s.bucketKeys then
      if s.buckets s.minFreq = [] then updateMinFreq s else s
    else { s with ub := true }
  else s

/-- `ArcLfu::put`. -/
def put (s : ArcLfuState K V) (k : K) (v : V) : ArcLfuState K V :=
  if s.ub then s else
  match lookupA s.cacheMap k with
  | some nid =>
      let s0 := { s with nodes := fun i => if i = nid then { s.nodes nid with val := v }
                  else s.nodes i }
      let s1 := updateNode s0 nid
      if s1.ub then s1 else fixMinFreq s1 nid
  | none => match lookupA s.ghostMap k with
    | some nid =>
        let s1 := removeGhost s nid
        if s1.ub then s1 else insertNewMain s1 k v
    | none => insertNewMain s k v

/-- `ArcLfu::get(key, value)`. -/
def getB (s : ArcLfuState K V) (k : K) : Bool × V × ArcLfuState K V :=
  if s.ub then (false, default, s) else
  match lookupA s.cacheMap k with
  | some nid =>
      let v := (s.nodes nid).val
      let s1 := updateNode s nid
      if s1.ub then (true, v, s1) else (true, v, fixMinFreq s1 nid)
  | none => match lookupA s.ghostMap k with
    | some nid =>
        let v := (s.nodes nid).val
        let s1 := removeGhost s nid
        (false, v, if s1.ub then s1 else insertNewMain s1 k v)
    | none => (false, default, s)

/-- `ArcLfu::get(key)`: the value overload, defaulting on a miss. -/
def get (s : ArcLfuState K V) (k : K) : V × ArcLfuState K V :=
  let p := getB s k
  if p.1 then (p.2.1, p.2.2) else (default, p.2.2)

end ArcLfu

/-! ## The ARC facade (`Arc.h`) -/
structure ArcState (K V : Type) where
  capacity : Int
  promotionThreshold : Int
  lruCache : ArcLruState K V
  lfuCache : ArcLfuState K V

namespace Arc

variable {K V : Type} [DecidableEq K] [Inhabited K] [Inhabited V]

/-- `Arc::Arc(capacity, promotionThreshold)`: BOTH halves are constructed
with the full `capacity`. -/
def init (cap threshold : Int) : ArcState K V :=
  { capacity := cap, promotionThreshold := threshold,
    lruCache := ArcLru.init cap threshold, lfuCache := ArcLfu.init cap threshold }

/-- `Arc::checkGhost`: a ghost hit on one side shrinks the other side's
capacity and, only if that succeeded, grows the hit side's. -/
def checkGhost (s : ArcState K V) (k : K) : Bool × ArcState K V :=
  let p := ArcLru.checkGhost s.lruCache k
  if p.1 then
    let q := ArcLfu.decreaseCapacity s.lfuCache
    if q.1 then (true, { s with lruCache := ArcLru.increaseCapacity p.2, lfuCache := q.2 })
    else (true, { s with lruCache := p.2, lfuCache := q.2 })
  else
    let r := ArcLfu.checkGhost s.lfuCache k
    if r.1 then
      let q := ArcLru.decreaseCapacity p.2
      if q.1 then (true, { s with lruCache := q.2, lfuCache := ArcLfu.increaseCapacity r.2 })
      else (true, { s with lruCache := q.2, lfuCache := r.2 })
    else (false, { s with lruCache := p.2, lfuCache := r.2 })

/-- `Arc::put`. -/
def put (s : ArcState K V) (k : K) (v : V) : ArcState K V :=
  let c := checkGhost s k
  if c.1 then { c.2 with lfuCache := ArcLfu.put c.2.lfuCache k v }
  else
    let p := ArcLru.put c.2.lruCache k v
    let s1 := { c.2 with lruCache := p.2 }
    if p.1 then { s1 with lfuCache := ArcLfu.put s1.lfuCache k v } else s1

/-- `Arc::get`. -/
def get (s : ArcState K V) (k : K) : V × ArcState K V :=
  let c := checkGhost s k
  let g := ArcLru.get c.2.lruCache k
  if g.1 then
    let s1 := { c.2 with lruCache := g.2.2.2 }
    if g.2.2.1 then (g.2.1, { s1 with lfuCache := ArcLfu.put s1.lfuCache k g.2.1 })
    else (g.2.1, s1)
  else
    let s1 := { c.2 with lruCache := g.2.2.2 }
    let q := ArcLfu.get s1.lfuCache k
    (q.1, { s1 with lfuCache := q.2 })

end Arc

/-- A client-visible ARC operation. -/
inductive ArcOp (K V : Type) where
  | put (k : K) (v : V)
  | get (k : K)

/-- Run a sequence of ARC operations. -/
def runArc {K V : Type} [DecidableEq K] [Inhabited K] [Inhabited V] :
    List (ArcOp K V) → ArcState K V → ArcState K V
  | [], s => s
  | ArcOp.put k v :: rest, s => runArc rest (Arc.put s k v)
  | ArcOp.get k :: rest, s => runArc rest (Arc.get s k).2

/-! ## Theorems -/

/-! ### Association-list lemmas -/

section AListLemmas

variable {K A : Type} [DecidableEq K]

theorem lookupA_isSome_iff (l : List (K × A)) (k : K) :
    (lookupA l k).isSome ↔ k ∈ l.map Prod.fst := by
  induction l with
  | nil => simp [lookupA]
  | cons hd tl ih =>
      obtain ⟨k', a'⟩ := hd
      by_cases hk : k = k'
      · subst hk; simp [lookupA]
      · simp [lookupA, hk, ih]

theorem lookupA_none_of_not_mem (l : List (K × A)) (k : K)
    (h : k ∉ l.map Prod.fst) : lookupA l k = none := by
  cases hl : lookupA l k with
  | none => rfl
  | some a =>
      exact absurd ((lookupA_isSome_iff l k).mp (by simp [hl])) h

theorem lookupA_insertA (l : List (K × A)) (k q : K) (a : A) :
    lookupA (insertA l k a) q = if q = k then some a else lookupA l q := by
  induction l with
  | nil => simp [insertA, lookupA]
  | cons hd tl ih =>
      obtain ⟨k', a'⟩ := hd
      by_cases hk : k = k'
      · subst hk
        by_cases hq : q = k <;> simp [insertA, lookupA, hq]
      · by_cases hq : q = k'
        · subst hq
          have hqk : q ≠ k := fun h => hk h.symm
          simp [insertA, lookupA, hk, hqk]
        · simp [insertA, lookupA, hk, hq, ih]

theorem keys_insertA_mem (l : List (K × A)) (k q : K) (a : A) :
    q ∈ (insertA l k a).map Prod.fst ↔ q ∈ l.map Prod.fst ∨ q = k := by
  induction l with
  | nil => simp [insertA]
  | cons hd tl ih =>
      obtain ⟨k', a'⟩ := hd
      by_cases hk : k = k'
      · subst hk
        have hred : insertA ((k, a') :: tl) k a = (k, a) :: tl := by simp [insertA]
        rw [hred]
        simp only [List.map_cons, List.mem_cons]
        tauto
      · simp only [insertA, if_neg hk, List.map_cons, List.mem_cons, ih]
        tauto

theorem keys_eraseA_mem (l : List (K × A)) (k q : K)
    (h : q ∈ (eraseA l k).map Prod.fst) : q ∈ l.map Prod.fst := by
  induction l with
  | nil => simp [eraseA] at h
  | cons hd tl ih =>
      obtain ⟨k', a'⟩ := hd
      by_cases hk : k = k'
      · subst hk
        simp only [eraseA, if_pos rfl] at h
        simp only [List.map_cons, List.mem_cons]
        exact Or.inr h
      · simp only [eraseA, if_neg hk, List.map_cons, List.mem_cons] at h
        simp only [List.map_cons, List.mem_cons]
        tauto

theorem lookupA_eraseA_of_nodup (l : List (K × A)) (hnd : (l.map Prod.fst).Nodup) (k q : K) :
    lookupA (eraseA l k) q = if q = k then none else lookupA l q := by
  induction l with
  | nil => simp [eraseA, lookupA]
  | cons hd tl ih =>
      obtain ⟨k', a'⟩ := hd
      simp only [List.map_cons, List.nodup_cons] at hnd
      by_cases hk : k = k'
      · subst hk
        simp only [eraseA, if_pos rfl]
        by_cases hq : q = k
        · subst hq
          simp only [if_pos rfl]
          exact lookupA_none_of_not_mem tl q hnd.1
        · simp [lookupA, hq]
      · by_cases hq : q = k'
        · subst hq
          have hqk : q ≠ k := fun h => hk h.symm
          simp [eraseA, lookupA, hk, hqk]
        · simp [eraseA, lookupA, hk, hq, ih hnd.2]

theorem keys_insertA_nodup (l : List (K × A)) (k : K) (a : A)
    (hnd : (l.map Prod.fst).Nodup) : ((insertA l k a).map Prod.fst).Nodup := by
  induction l with
  | nil => simp [insertA]
  | cons hd tl ih =>
      obtain ⟨k', a'⟩ := hd
      simp only [List.map_cons, List.nodup_cons] at hnd
      by_cases hk : k = k'
      · subst hk
        have hred : insertA ((k, a') :: tl) k a = (k, a) :: tl := by simp [insertA]
        rw [hred]
        simp only [List.map_cons, List.nodup_cons]
        exact hnd
      · simp only [insertA, if_neg hk, List.map_cons, List.nodup_cons]
        refine ⟨?_, ih hnd.2⟩
        intro hmem
        rcases (keys_insertA_mem tl k k' a).mp hmem with h | h
        · exact hnd.1 h
        · exact hk h.symm

theorem keys_eraseA_nodup (l : List (K × A)) (k : K)
    (hnd : (l.map Prod.fst).Nodup) : ((eraseA l k).map Prod.fst).Nodup := by
  induction l with
  | nil => simp [eraseA]
  | cons hd tl ih =>
      obtain ⟨k', a'⟩ := hd
      simp only [List.map_cons, List.nodup_cons] at hnd
      by_cases hk : k = k'
      · subst hk
        simp only [eraseA, if_pos rfl]
        exact hnd.2
      · simp only [eraseA, if_neg hk, List.map_cons, List.nodup_cons]
        exact ⟨fun hmem => hnd.1 (keys_eraseA_mem tl k k' hmem), ih hnd.2⟩

theorem insertA_length (l : List (K × A)) (k : K) (a : A) (h : lookupA l k = none) :
    (insertA l k a).length = l.length + 1 := by
  induction l with
  | nil => simp [insertA]
  | cons hd tl ih =>
      obtain ⟨k', a'⟩ := hd
      by_cases hk : k = k'
      · simp [lookupA, hk] at h
      · simp only [lookupA, if_neg hk] at h
        simp [insertA, hk, ih h]

theorem eraseA_length (l : List (K × A)) (k : K) (a : A) (h : lookupA l k = some a) :
    (eraseA l k).length + 1 = l.length := by
  induction l with
  | nil => simp [lookupA] at h
  | cons hd tl ih =>
      obtain ⟨k', a'⟩ := hd
      by_cases hk : k = k'
      · simp [eraseA, hk]
      · simp only [lookupA, if_neg hk] at h
        simp [eraseA, hk, ih h]

theorem insertA_ne_nil (l : List (K × A)) (k : K) (a : A) : insertA l k a ≠ [] := by
  cases l with
  | nil => simp [insertA]
  | cons hd tl =>
      obtain ⟨k', a'⟩ := hd
      by_cases hk : k = k'
      · simp [insertA, hk]
      · simp [insertA, hk]

theorem lookupA_ne_nil (l : List (K × A)) (k : K) (a : A) (h : lookupA l k = some a) :
    l ≠ [] := by
  cases l with
  | nil => simp [lookupA] at h
  | cons hd tl => simp

end AListLemmas

/-- Appending a fresh element preserves `Nodup`. -/
theorem nodup_append_singleton {α : Type} (l : List α) (a : α)
    (hnd : l.Nodup) (hna : a ∉ l) : (l ++ [a]).Nodup := by
  simp [List.nodup_append, hnd, hna]

/-! ### The `updateMinFreq` fold -/

/-- Characterisation of the `updateMinFreq` fold: the result is the initial
accumulator or the index of a non-empty bucket in the iterated list, it
never exceeds the accumulator, and it bounds every non-empty bucket of the
list from below. -/
theorem minfold_spec (B : Int → List Nat) (l : List Int) (a : Int) :
    (l.foldl (fun acc f => if B f = [] then acc else min acc f) a = a ∨
      (B (l.foldl (fun acc f => if B f = [] then acc else min acc f) a) ≠ [] ∧
        l.foldl (fun acc f => if B f = [] then acc else min acc f) a ∈ l)) ∧
    l.foldl (fun acc f => if B f = [] then acc else min acc f) a ≤ a ∧
    (∀ f ∈ l, B f ≠ [] → l.foldl (fun acc f => if B f = [] then acc else min acc f) a ≤ f) := by
  induction l generalizing a with
  | nil => simp
  | cons g rest ih =>
      by_cases hg : B g = []
      · simp only [List.foldl_cons, if_pos hg]
        obtain ⟨ih1, ih2, ih3⟩ := ih a
        refine ⟨?_, ih2, ?_⟩
        · rcases ih1 with h | h
          · exact Or.inl h
          · exact Or.inr ⟨h.1, List.mem_cons_of_mem _ h.2⟩
        · intro f hf hB
          rcases List.mem_cons.mp hf with rfl | hf
          · exact absurd hg hB
          · exact ih3 f hf hB
      · simp only [List.foldl_cons, if_neg hg]
        obtain ⟨ih1, ih2, ih3⟩ := ih (min a g)
        have hle : (rest.foldl (fun acc f => if B f = [] then acc else min acc f) (min a g)) ≤ a :=
          le_trans ih2 (min_le_left _ _)
        refine ⟨?_, hle, ?_⟩
        · rcases ih1 with h | h
          · rcases min_choice a g with hmin | hmin
            · exact Or.inl (h.trans hmin)
            · refine Or.inr ⟨?_, ?_⟩
              · rw [h, hmin]; exact hg
              · rw [h, hmin]; exact List.mem_cons_self _ _
          · exact Or.inr ⟨h.1, List.mem_cons_of_mem _ h.2⟩
        · intro f hf hB
          rcases List.mem_cons.mp hf with rfl | hf
          · exact le_trans ih2 (min_le_right _ _)
          · exact ih3 f hf hB

/-- Claim C2, behaviour at the failing input: on `Lru(1)`, the operation
sequence `put(1,10); put(1,20)` is two quiescent public operations, yet the
engine's `size` counter ends at 2, exceeding the capacity 1 (the update
branch of `Lru::put` unlinks the old node but then calls `insertBack`,
which increments `size` again); the map still stores a single entry. -/
theorem lru_size_exceeds_capacity :
    let s : LruState Nat Nat := Lru.put (Lru.put (Lru.init 1) 1 10) 1 20
    s.ub = false ∧ s.capacity = 1 ∧ s.size = 2 ∧ ¬ s.size ≤ s.capacity ∧
    s.cacheMap.length = 1 := by
  decide

/-- Claim C3, behaviour at the failing input: on `Lru(2)`, after
`put(1,10); remove(1)` the key is not fully erased: `contains(1)` still
returns `true` (the map entry survives `Lru::remove`), and a subsequent
`get(1)` does not return a miss — it finds the detached node in the map and
calls `LinkedList::remove` on it, following its null `next` pointer
(undefined behaviour), rather than returning the default value. -/
theorem lru_remove_leaves_key :
    let s : LruState Nat Nat := Lru.remove (Lru.put (Lru.init 2) 1 10) 1
    s.ub = false ∧ Lru.contains s 1 = true ∧
    lookupA s.cacheMap 1 = some 0 ∧ (Lru.get s 1).2.ub = true := by
  decide

/-- Claim C10, behaviour at the failing input: on `Lru(1)`, after
`put(1,10); remove(1)` the state is quiescent with an empty linked list but
`size = 1 ≥ capacity`, so `put(2,20)` takes the eviction branch with an
empty list: `removeFront` returns null and `removelru` dereferences it. -/
theorem lru_eviction_branch_empty_list :
    let s : LruState Nat Nat := Lru.remove (Lru.put (Lru.init 1) 1 10) 1
    s.ub = false ∧ s.listL = [] ∧ lookupA s.cacheMap 2 = none ∧
    s.size ≥ s.capacity ∧ (Lru.put s 2 20).ub = true := by
  decide

/-- Claim C7, counterexample: with hot capacity 1, cold capacity 2 and
K = 2, after `put(1,10); put(1,10)` key 1 has not been promoted to the hot
cache — the claim states it is in the hot cache immediately after the
second put, but `LruK::put` sees cold frequency 1 < 2 at the second put and
keeps the key cold. -/
theorem lruk_no_promotion_after_second_put :
    let s := LruK.put (LruK.put (LruK.init 1 2 2 : LruKState Nat Nat) 1 10) 1 10
    Lru.contains s.hot 1 = false := by
  decide

/-- Claim C7, amended: with hot capacity 1, cold capacity 2 and K = 2,
after `put(1,10); put(1,10)` key 1 sits in the cold cache with frequency 2
(the threshold), not in the hot cache; the subsequent `get(1)` returns 10
and performs the promotion, so only after the get is key 1 in the hot
cache (and the value is re-read through the hot cache). -/
theorem lruk_promotion_on_get :
    let s : LruKState Nat Nat := LruK.put (LruK.put (LruK.init 1 2 2) 1 10) 1 10
    let g := LruK.get s 1
    Lru.contains s.hot 1 = false ∧ Lru.contains s.coldCache 1 = true ∧
    Lru.getFrequency s.coldCache 1 = 2 ∧
    g.1 = 10 ∧ Lru.contains g.2.hot 1 = true ∧
    g.2.hot.ub = false ∧ g.2.coldCache.ub = false := by
  decide

/-- Claim C6, counterexample: after the public operation `get(5)` on a
fresh `Lfu(2)` the key map is empty, yet `minFreq` is not ⊥ — it is the
ordinary integer 1 (the field is a plain `int`; no bottom value exists, so
"minFreq is ⊥ iff the map is empty" fails at this quiescent point). -/
theorem lfu_minfreq_not_bot_on_empty :
    let s := runLfu [LfuOp.get 5] (Lfu.init 2 : LfuState Nat Nat)
    s.mp = [] ∧ s.minFreq = 1 ∧ s.ub = false := by
  decide

/-! ### Preservation of the LFU invariant -/

/-- After a hit, `updateNode` (plus an optional value write) moves the node
from its frequency bucket to the next one; this preserves the structural
invariant whatever `minFreq` is set to. -/
theorem Lfu.hit_core {K V : Type} [DecidableEq K] (s : LfuState K V) (k : K) (nid : Nat)
    (w : V) (M : Int) (hg : LfuGood s) (hk : lookupA s.mp k = some nid)
    (hof : (s.nodes nid).freq + 1 ≤ INTMAX) :
    LfuCore { s with
      nodes := fun i => if i = nid then ⟨(s.nodes nid).key, w, (s.nodes nid).freq + 1⟩
               else s.nodes i,
      bucketKeys := if (s.nodes nid).freq + 1 ∈ s.bucketKeys then s.bucketKeys
                    else s.bucketKeys ++ [(s.nodes nid).freq + 1],
      buckets := fun g =>
        if g = (s.nodes nid).freq + 1 then s.buckets ((s.nodes nid).freq + 1) ++ [nid]
        else if g = (s.nodes nid).freq then (s.buckets (s.nodes nid).freq).erase nid
        else s.buckets g,
      minFreq := M } := by
  obtain ⟨hkey, hmem⟩ := hg.mpSound k nid hk
  have hFne : (s.nodes nid).freq + 1 ≠ (s.nodes nid).freq := by omega
  have hnotmem : nid ∉ s.buckets ((s.nodes nid).freq + 1) := by
    intro hc
    have := (hg.bucketSound _ nid hc).1
    omega
  refine { noUb := hg.noUb, keyNodup := hg.keyNodup, sizeEq := hg.sizeEq,
           mpSound := ?_, bucketSound := ?_, freqBounds := ?_,
           bucketNodup := ?_, bucketAlloc := ?_, idFresh := ?_ }
  · -- mpSound
    intro q m hq
    dsimp only at hq ⊢
    obtain ⟨hqk, hqm⟩ := hg.mpSound q m hq
    by_cases hm : m = nid
    · subst hm
      simp only [if_pos rfl]
      exact ⟨hqk, by simp⟩
    · simp only [if_neg hm]
      refine ⟨hqk, ?_⟩
      by_cases h1 : (s.nodes m).freq = (s.nodes nid).freq + 1
      · rw [h1, if_pos rfl]
        rw [h1] at hqm
        exact List.mem_append_left _ hqm
      · by_cases h2 : (s.nodes m).freq = (s.nodes nid).freq
        · rw [h2, if_neg hFne.symm, if_pos rfl]
          rw [h2] at hqm
          exact (List.mem_erase_of_ne hm).mpr hqm
        · rw [if_neg h1, if_neg h2]
          exact hqm
  · -- bucketSound
    intro g m hmG
    dsimp only at hmG ⊢
    by_cases hg1 : g = (s.nodes nid).freq + 1
    · subst hg1
      rw [if_pos rfl] at hmG
      rcases List.mem_append.mp hmG with hmo | hmn
      · have hmne : m ≠ nid := fun h => hnotmem (h ▸ hmo)
        obtain ⟨hfm, hlm⟩ := hg.bucketSound _ m hmo
        simp only [if_neg hmne]
        exact ⟨hfm, hlm⟩
      · have hmn' : m = nid := by simpa using hmn
        subst hmn'
        simp only [if_pos rfl]
        exact ⟨rfl, by rw [hkey]; exact hk⟩
    · by_cases hg2 : g = (s.nodes nid).freq
      · subst hg2
        rw [if_neg hg1, if_pos rfl] at hmG
        obtain ⟨hmne, hmo⟩ := ((hg.bucketNodup _).mem_erase_iff).mp hmG
        obtain ⟨hfm, hlm⟩ := hg.bucketSound _ m hmo
        simp only [if_neg hmne]
        exact ⟨hfm, hlm⟩
      · rw [if_neg hg1, if_neg hg2] at hmG
        obtain ⟨hfm, hlm⟩ := hg.bucketSound _ m hmG
        have hmne : m ≠ nid := by
          intro h
          subst h
          exact hg2 hfm.symm
        simp only [if_neg hmne]
        exact ⟨hfm, hlm⟩
  · -- freqBounds
    intro g hne
    dsimp only at hne ⊢
    by_cases hg1 : g = (s.nodes nid).freq + 1
    · subst hg1
      have := (hg.freqBounds _ (List.ne_nil_of_mem hmem)).1
      exact ⟨by omega, hof⟩
    · by_cases hg2 : g = (s.nodes nid).freq
      · subst hg2
        exact hg.freqBounds _ (List.ne_nil_of_mem hmem)
      · rw [if_neg hg1, if_neg hg2] at hne
        exact hg.freqBounds _ hne
  · -- bucketNodup
    intro g
    dsimp only
    by_cases hg1 : g = (s.nodes nid).freq + 1
    · subst hg1
      rw [if_pos rfl]
      exact nodup_append_singleton _ _ (hg.bucketNodup _) hnotmem
    · by_cases hg2 : g = (s.nodes nid).freq
      · subst hg2
        rw [if_neg hg1, if_pos rfl]
        exact (hg.bucketNodup _).erase _
      · rw [if_neg hg1, if_neg hg2]
        exact hg.bucketNodup g
  · -- bucketAlloc
    intro g hne
    dsimp only at hne ⊢
    by_cases hg1 : g = (s.nodes nid).freq + 1
    · subst hg1
      by_cases hin : (s.nodes nid).freq + 1 ∈ s.bucketKeys
      · rw [if_pos hin]; exact hin
      · rw [if_neg hin]; simp
    · by_cases hg2 : g = (s.nodes nid).freq
      · subst hg2
        rw [if_neg hg1, if_pos rfl] at hne
        have ho : s.buckets (s.nodes nid).freq ≠ [] := List.ne_nil_of_mem hmem
        have halloc := hg.bucketAlloc _ ho
        by_cases hin : (s.nodes nid).freq + 1 ∈ s.bucketKeys
        · rw [if_pos hin]; exact halloc
        · rw [if_neg hin]; exact List.mem_append_left _ halloc
      · rw [if_neg hg1, if_neg hg2] at hne
        have halloc := hg.bucketAlloc g hne
        by_cases hin : (s.nodes nid).freq + 1 ∈ s.bucketKeys
        · rw [if_pos hin]; exact halloc
        · rw [if_neg hin]; exact List.mem_append_left _ halloc
  · -- idFresh
    intro g m hmG
    dsimp only at hmG ⊢
    by_cases hg1 : g = (s.nodes nid).freq + 1
    · subst hg1
      rw [if_pos rfl] at hmG
      rcases List.mem_append.mp hmG with hmo | hmn
      · exact hg.idFresh _ m hmo
      · have hmn' : m = nid := by simpa using hmn
        subst hmn'
        exact hg.idFresh _ m hmem
    · by_cases hg2 : g = (s.nodes nid).freq
      · subst hg2
        rw [if_neg hg1, if_pos rfl] at hmG
        exact hg.idFresh _ m (List.mem_of_mem_erase hmG)
      · rw [if_neg hg1, if_neg hg2] at hmG
        exact hg.idFresh g m hmG

/-- `updateNode` with an overflowing frequency freezes the state. -/
theorem Lfu.updateNode_overflow {K V : Type} [DecidableEq K] (s : LfuState K V) (nid : Nat)
    (hub : s.ub = false)
    (hbk : (s.nodes nid).freq ∈ s.bucketKeys) (hmem : nid ∈ s.buckets (s.nodes nid).freq)
    (hof : (s.nodes nid).freq + 1 > INTMAX) :
    (Lfu.updateNode s nid).ub = true := by
  simp only [Lfu.updateNode, Lfu.removeNode, Lfu.insertNode, if_pos hbk, if_pos hmem]
  simp [hub, hof]

/-- Explicit form of `updateNode` in the non-overflowing case. -/
theorem Lfu.updateNode_eq {K V : Type} [DecidableEq K] (s : LfuState K V) (nid : Nat)
    (hub : s.ub = false)
    (hbk : (s.nodes nid).freq ∈ s.bucketKeys) (hmem : nid ∈ s.buckets (s.nodes nid).freq)
    (hof : ¬ (s.nodes nid).freq + 1 > INTMAX) :
    Lfu.updateNode s nid = { s with
      nodes := fun i => if i = nid then ⟨(s.nodes nid).key, (s.nodes nid).val, (s.nodes nid).freq + 1⟩
               else s.nodes i,
      bucketKeys := if (s.nodes nid).freq + 1 ∈ s.bucketKeys then s.bucketKeys
                    else s.bucketKeys ++ [(s.nodes nid).freq + 1],
      buckets := fun g =>
        if g = (s.nodes nid).freq + 1 then s.buckets ((s.nodes nid).freq + 1) ++ [nid]
        else if g = (s.nodes nid).freq then (s.buckets (s.nodes nid).freq).erase nid
        else s.buckets g } := by
  have hne2 : ¬ ((s.nodes nid).freq + 1 = (s.nodes nid).freq) := by omega
  simp only [Lfu.updateNode, Lfu.removeNode, Lfu.insertNode, if_pos hbk, if_pos hmem]
  simp only [hub, Bool.false_eq_true, if_false, if_neg hof]
  ext1
  · rfl
  · rfl
  · rfl
  · funext i
    by_cases hi : i = nid <;> simp [hi]
  · rfl
  · funext g
    simp only [if_true]
    rw [if_neg hne2]
  · simp
  · rfl
  · rfl

/-- `updateMinFreq` restores the `minFreq` facts on any structurally sound
state with a non-empty map and some non-empty bucket. -/
theorem Lfu.updateMinFreq_good {K V : Type} [DecidableEq K] (t : LfuState K V)
    (hc : LfuCore t) (hne : t.mp ≠ []) (f0 : Int) (hf0 : t.buckets f0 ≠ []) :
    LfuGood (Lfu.updateMinFreq t) := by
  obtain ⟨hfold1, hfold2, hfold3⟩ := minfold_spec t.buckets t.bucketKeys INTMAX
  have hf0k : f0 ∈ t.bucketKeys := hc.bucketAlloc f0 hf0
  have hlef0 := hfold3 f0 hf0k hf0
  refine { noUb := hc.noUb, keyNodup := hc.keyNodup, sizeEq := hc.sizeEq,
           mpSound := hc.mpSound, bucketSound := hc.bucketSound,
           freqBounds := hc.freqBounds, bucketNodup := hc.bucketNodup,
           bucketAlloc := hc.bucketAlloc, idFresh := hc.idFresh,
           minFreqLB := ?_, minFreqMem := ?_, minFreqEmpty := ?_ }
  · intro g hgne
    exact hfold3 g (hc.bucketAlloc g hgne) hgne
  · intro _
    rcases hfold1 with h | h
    · have hub0 : f0 ≤ INTMAX := (hc.freqBounds f0 hf0).2
      have : t.buckets (t.bucketKeys.foldl
          (fun acc f => if t.buckets f = [] then acc else min acc f) INTMAX) = t.buckets f0 := by
        rw [h]
        congr 1
        omega
      rw [Lfu.updateMinFreq]
      intro hc2
      rw [this] at hc2
      exact hf0 hc2
    · exact h.1
  · intro hmp
    exact absurd hmp hne

/-- Reduction of `Lfu::put` on a hit without frequency overflow. -/
theorem Lfu.put_hit_eq {K V : Type} [DecidableEq K] [Inhabited K] [Inhabited V]
    (s : LfuState K V) (k : K) (v : V) (nid : Nat)
    (hcap : ¬ s.cap ≤ 0) (hub : s.ub = false) (hlk : lookupA s.mp k = some nid)
    (hbk : (s.nodes nid).freq ∈ s.bucketKeys) (hmem : nid ∈ s.buckets (s.nodes nid).freq)
    (hof : ¬ (s.nodes nid).freq + 1 > INTMAX) :
    Lfu.put s k v = Lfu.updateMinFreq { s with
      nodes := fun i => if i = nid then ⟨(s.nodes nid).key, v, (s.nodes nid).freq + 1⟩
               else s.nodes i,
      bucketKeys := if (s.nodes nid).freq + 1 ∈ s.bucketKeys then s.bucketKeys
                    else s.bucketKeys ++ [(s.nodes nid).freq + 1],
      buckets := fun g =>
        if g = (s.nodes nid).freq + 1 then s.buckets ((s.nodes nid).freq + 1) ++ [nid]
        else if g = (s.nodes nid).freq then (s.buckets (s.nodes nid).freq).erase nid
        else s.buckets g } := by
  simp only [Lfu.put, if_neg hcap, hub, Bool.false_eq_true, if_false, hlk]
  rw [Lfu.updateNode_eq s nid hub hbk hmem hof]
  simp only [hub, Bool.false_eq_true, if_false]
  congr 1
  ext1
  · rfl
  · rfl
  · rfl
  · funext i
    by_cases hi : i = nid <;> simp [hi]
  · rfl
  · rfl
  · rfl
  · rfl
  · rfl

/-- The state left by `removeLFU` followed by `size--` is structurally
sound: the evicted node is the head of the `minFreq` bucket and its key is
erased from the map. -/
theorem Lfu.removeLFU_core {K V : Type} [DecidableEq K] (s : LfuState K V)
    (hg : LfuGood s) (nid0 : Nat) (rest : List Nat)
    (hb : s.buckets s.minFreq = nid0 :: rest) :
    LfuCore { s with
      buckets := fun g => if g = s.minFreq then rest else s.buckets g,
      mp := eraseA s.mp (s.nodes nid0).key,
      size := s.size - 1 } := by
  have hmem0 : nid0 ∈ s.buckets s.minFreq := by rw [hb]; exact List.mem_cons_self _ _
  obtain ⟨hf0, hl0⟩ := hg.bucketSound s.minFreq nid0 hmem0
  have hnd0 : nid0 ∉ rest := by
    have := hg.bucketNodup s.minFreq
    rw [hb] at this
    exact (List.nodup_cons.mp this).1
  have hrest_sub : ∀ m, m ∈ rest → m ∈ s.buckets s.minFreq := by
    intro m hm; rw [hb]; exact List.mem_cons_of_mem _ hm
  -- a node still in a bucket after the pop is not the evicted node
  have hother : ∀ g m, m ∈ (fun g => if g = s.minFreq then rest else s.buckets g) g →
      m ∈ s.buckets g ∧ m ≠ nid0 := by
    intro g m hm
    dsimp only at hm
    by_cases hgm : g = s.minFreq
    · rw [if_pos hgm] at hm
      subst hgm
      exact ⟨hrest_sub m hm, fun h => hnd0 (h ▸ hm)⟩
    · rw [if_neg hgm] at hm
      refine ⟨hm, ?_⟩
      intro h
      have hfr := (hg.bucketSound g m hm).1
      rw [h] at hfr
      rw [hfr] at hf0
      exact hgm hf0
  refine { noUb := hg.noUb, keyNodup := ?_, mpSound := ?_, bucketSound := ?_,
           freqBounds := ?_, bucketNodup := ?_, bucketAlloc := ?_, idFresh := ?_,
           sizeEq := ?_ }
  · exact keys_eraseA_nodup _ _ hg.keyNodup
  · intro q m hq
    dsimp only at hq ⊢
    rw [lookupA_eraseA_of_nodup s.mp hg.keyNodup _ q] at hq
    by_cases hqk : q = (s.nodes nid0).key
    · rw [if_pos hqk] at hq; exact absurd hq (by simp)
    · rw [if_neg hqk] at hq
      obtain ⟨hqm, hmm⟩ := hg.mpSound q m hq
      refine ⟨hqm, ?_⟩
      by_cases hfm : (s.nodes m).freq = s.minFreq
      · rw [hfm, if_pos rfl]
        have hmmem : m ∈ nid0 :: rest := by rw [← hb, ← hfm]; exact hmm
        rcases List.mem_cons.mp hmmem with h | h
        · exfalso
          apply hqk
          rw [← hqm, h]
        · exact h
      · rw [if_neg hfm]
        exact hmm
  · intro g m hm
    dsimp only at hm ⊢
    obtain ⟨hmo, hmne⟩ := hother g m hm
    obtain ⟨hfm, hlm⟩ := hg.bucketSound g m hmo
    have hkne : (s.nodes m).key ≠ (s.nodes nid0).key := by
      intro h
      rw [h, hl0] at hlm
      exact hmne (Option.some.injEq _ _ ▸ hlm.symm ▸ rfl)
    refine ⟨hfm, ?_⟩
    rw [lookupA_eraseA_of_nodup s.mp hg.keyNodup _ _, if_neg hkne]
    exact hlm
  · intro g hne
    dsimp only at hne
    by_cases hgm : g = s.minFreq
    · subst hgm
      exact hg.freqBounds _ (by rw [hb]; simp)
    · rw [if_neg hgm] at hne
      exact hg.freqBounds g hne
  · intro g
    dsimp only
    by_cases hgm : g = s.minFreq
    · rw [if_pos hgm]
      have := hg.bucketNodup s.minFreq
      rw [hb] at this
      exact (List.nodup_cons.mp this).2
    · rw [if_neg hgm]
      exact hg.bucketNodup g
  · intro g hne
    dsimp only at hne ⊢
    by_cases hgm : g = s.minFreq
    · subst hgm
      exact hg.bucketAlloc _ (by rw [hb]; simp)
    · rw [if_neg hgm] at hne
      exact hg.bucketAlloc g hne
  · intro g m hm
    dsimp only at hm ⊢
    exact hg.idFresh g m (hother g m hm).1
  · dsimp only
    have := eraseA_length s.mp (s.nodes nid0).key nid0 hl0
    have hsz := hg.sizeEq
    omega

/-- Inserting a fresh node with frequency 1 and setting `minFreq = 1`
(`insertNewNode` plus the surrounding bookkeeping in `Lfu::put`) produces a
good state from any structurally sound state missing the key. -/
theorem Lfu.fresh_insert_good {K V : Type} [DecidableEq K] (s1 : LfuState K V) (k : K) (v : V)
    (hc : LfuCore s1) (hk : lookupA s1.mp k = none) :
    LfuGood (Lfu.freshInsertState s1 k v) := by
  rw [Lfu.freshInsertState]
  have hfreshmem : ∀ g m, m ∈ s1.buckets g → m ≠ s1.nextId := by
    intro g m hm h
    have := hc.idFresh g m hm
    omega
  have hkeyne : ∀ m g, m ∈ s1.buckets g → (s1.nodes m).key ≠ k := by
    intro m g hm h
    have := (hc.bucketSound g m hm).2
    rw [h, hk] at this
    exact absurd this (by simp)
  refine { noUb := hc.noUb, keyNodup := keys_insertA_nodup _ _ _ hc.keyNodup,
           mpSound := ?_, bucketSound := ?_, freqBounds := ?_, bucketNodup := ?_,
           bucketAlloc := ?_, idFresh := ?_, sizeEq := ?_,
           minFreqLB := ?_, minFreqMem := ?_, minFreqEmpty := ?_ }
  · intro q m hq
    dsimp only at hq ⊢
    rw [lookupA_insertA] at hq
    by_cases hqk : q = k
    · rw [if_pos hqk] at hq
      have hm : s1.nextId = m := by simpa using hq
      subst hm
      simp [hqk]
    · rw [if_neg hqk] at hq
      obtain ⟨hqm, hmm⟩ := hc.mpSound q m hq
      have hmne : m ≠ s1.nextId := hfreshmem _ m hmm
      rw [if_neg hmne]
      refine ⟨hqm, ?_⟩
      by_cases hf1 : (s1.nodes m).freq = 1
      · rw [hf1, if_pos rfl]
        rw [hf1] at hmm
        exact List.mem_append_left _ hmm
      · rw [if_neg hf1]
        exact hmm
  · intro g m hm
    dsimp only at hm ⊢
    by_cases hg1 : g = 1
    · subst hg1
      rw [if_pos rfl] at hm
      rcases List.mem_append.mp hm with hmo | hmn
      · have hmne : m ≠ s1.nextId := hfreshmem _ m hmo
        obtain ⟨hfm, hlm⟩ := hc.bucketSound _ m hmo
        rw [if_neg hmne, lookupA_insertA, if_neg (hkeyne m _ hmo)]
        exact ⟨hfm, hlm⟩
      · have hmn' : m = s1.nextId := by simpa using hmn
        subst hmn'
        rw [if_pos rfl, lookupA_insertA]
        exact ⟨rfl, by rw [if_pos rfl]⟩
    · rw [if_neg hg1] at hm
      have hmne : m ≠ s1.nextId := hfreshmem _ m hm
      obtain ⟨hfm, hlm⟩ := hc.bucketSound _ m hm
      rw [if_neg hmne, lookupA_insertA, if_neg (hkeyne m _ hm)]
      exact ⟨hfm, hlm⟩
  · intro g hne
    dsimp only at hne
    by_cases hg1 : g = 1
    · subst hg1
      exact ⟨le_refl 1, by rw [INTMAX]; omega⟩
    · rw [if_neg hg1] at hne
      exact hc.freqBounds g hne
  · intro g
    dsimp only
    by_cases hg1 : g = 1
    · rw [if_pos hg1]
      refine nodup_append_singleton _ _ (hc.bucketNodup 1) ?_
      intro hmem
      exact hfreshmem 1 s1.nextId hmem rfl
    · rw [if_neg hg1]
      exact hc.bucketNodup g
  · intro g hne
    dsimp only at hne ⊢
    by_cases hg1 : g = 1
    · subst hg1
      by_cases hin : (1 : Int) ∈ s1.bucketKeys
      · rw [if_pos hin]; exact hin
      · rw [if_neg hin]; simp
    · rw [if_neg hg1] at hne
      have := hc.bucketAlloc g hne
      by_cases hin : (1 : Int) ∈ s1.bucketKeys
      · rw [if_pos hin]; exact this
      · rw [if_neg hin]; exact List.mem_append_left _ this
  · intro g m hm
    dsimp only at hm ⊢
    by_cases hg1 : g = 1
    · rw [if_pos hg1] at hm
      rcases List.mem_append.mp hm with hmo | hmn
      · have := hc.idFresh _ m hmo
        omega
      · have hmn' : m = s1.nextId := by simpa using hmn
        omega
    · rw [if_neg hg1] at hm
      have := hc.idFresh g m hm
      omega
  · dsimp only
    have := insertA_length s1.mp k s1.nextId hk
    have hsz := hc.sizeEq
    omega
  · intro g hne
    dsimp only at hne ⊢
    by_cases hg1 : g = 1
    · omega
    · rw [if_neg hg1] at hne
      exact (hc.freqBounds g hne).1
  · intro _
    dsimp only
    rw [if_pos rfl]
    simp
  · intro hmp
    dsimp only at hmp
    exact absurd hmp (insertA_ne_nil _ _ _)

/-- After a get hit that leaves `minFreq` unchanged, the state is good,
provided the vacated bucket is only relevant when non-empty. -/
theorem Lfu.get_hit_keep_good {K V : Type} [DecidableEq K] (s : LfuState K V) (k : K)
    (nid : Nat) (hg : LfuGood s) (hk : lookupA s.mp k = some nid)
    (hof : (s.nodes nid).freq + 1 ≤ INTMAX)
    (hmemne : (s.nodes nid).freq = s.minFreq → (s.buckets (s.nodes nid).freq).erase nid ≠ []) :
    LfuGood { s with
      nodes := fun i => if i = nid then
                 ⟨(s.nodes nid).key, (s.nodes nid).val, (s.nodes nid).freq + 1⟩
               else s.nodes i,
      bucketKeys := if (s.nodes nid).freq + 1 ∈ s.bucketKeys then s.bucketKeys
                    else s.bucketKeys ++ [(s.nodes nid).freq + 1],
      buckets := fun g =>
        if g = (s.nodes nid).freq + 1 then s.buckets ((s.nodes nid).freq + 1) ++ [nid]
        else if g = (s.nodes nid).freq then (s.buckets (s.nodes nid).freq).erase nid
        else s.buckets g } := by
  obtain ⟨hkey, hmem⟩ := hg.mpSound k nid hk
  have hlbF : s.minFreq ≤ (s.nodes nid).freq := hg.minFreqLB _ (List.ne_nil_of_mem hmem)
  refine { toLfuCore := Lfu.hit_core s k nid (s.nodes nid).val s.minFreq hg hk hof,
           minFreqLB := ?_, minFreqMem := ?_, minFreqEmpty := ?_ }
  · intro g hgne
    dsimp only at hgne ⊢
    by_cases hg1 : g = (s.nodes nid).freq + 1
    · omega
    · by_cases hg2 : g = (s.nodes nid).freq
      · omega
      · rw [if_neg hg1, if_neg hg2] at hgne
        exact hg.minFreqLB g hgne
  · intro _
    dsimp only
    have hne1 : ¬ s.minFreq = (s.nodes nid).freq + 1 := by omega
    rw [if_neg hne1]
    by_cases hg2 : s.minFreq = (s.nodes nid).freq
    · rw [if_pos hg2]
      exact hmemne hg2.symm
    · rw [if_neg hg2]
      exact hg.minFreqMem (lookupA_ne_nil _ _ _ hk)
  · intro hmp
    dsimp only at hmp
    exact absurd hmp (lookupA_ne_nil _ _ _ hk)

/-- After a get hit at the minimum frequency that empties its bucket,
`minFreq++` yields a good state. -/
theorem Lfu.get_hit_bump_good {K V : Type} [DecidableEq K] (s : LfuState K V) (k : K)
    (nid : Nat) (hg : LfuGood s) (hk : lookupA s.mp k = some nid)
    (hof : (s.nodes nid).freq + 1 ≤ INTMAX)
    (hF : (s.nodes nid).freq = s.minFreq)
    (hemp : (s.buckets (s.nodes nid).freq).erase nid = []) :
    LfuGood { s with
      nodes := fun i => if i = nid then
                 ⟨(s.nodes nid).key, (s.nodes nid).val, (s.nodes nid).freq + 1⟩
               else s.nodes i,
      bucketKeys := if (s.nodes nid).freq + 1 ∈ s.bucketKeys then s.bucketKeys
                    else s.bucketKeys ++ [(s.nodes nid).freq + 1],
      buckets := fun g =>
        if g = (s.nodes nid).freq + 1 then s.buckets ((s.nodes nid).freq + 1) ++ [nid]
        else if g = (s.nodes nid).freq then (s.buckets (s.nodes nid).freq).erase nid
        else s.buckets g,
      minFreq := s.minFreq + 1 } := by
  refine { toLfuCore := Lfu.hit_core s k nid (s.nodes nid).val (s.minFreq + 1) hg hk hof,
           minFreqLB := ?_, minFreqMem := ?_, minFreqEmpty := ?_ }
  · intro g hgne
    dsimp only at hgne ⊢
    by_cases hg1 : g = (s.nodes nid).freq + 1
    · omega
    · by_cases hg2 : g = (s.nodes nid).freq
      · rw [if_neg hg1, if_pos hg2] at hgne
        exact absurd hemp hgne
      · rw [if_neg hg1, if_neg hg2] at hgne
        have := hg.minFreqLB g hgne
        have hgF : g ≠ s.minFreq := by rw [← hF]; exact hg2
        omega
  · intro _
    dsimp only
    rw [if_pos (by omega : s.minFreq + 1 = (s.nodes nid).freq + 1)]
    simp
  · intro hmp
    dsimp only at hmp
    exact absurd hmp (lookupA_ne_nil _ _ _ hk)

/-- Reduction of `Lfu::put` on a miss without eviction. -/
theorem Lfu.put_miss_noevict_eq {K V : Type} [DecidableEq K] [Inhabited K] [Inhabited V]
    (s : LfuState K V) (k : K) (v : V)
    (hcap : ¬ s.cap ≤ 0) (hub : s.ub = false) (hlk : lookupA s.mp k = none)
    (hsz : ¬ s.size = s.cap) :
    Lfu.put s k v = Lfu.freshInsertState s k v := by
  simp only [Lfu.put, if_neg hcap, hub, Bool.false_eq_true, if_false, hlk, if_neg hsz,
             Lfu.insertNewNode, Lfu.freshInsertState, eq_self_iff_true, if_true]

/-- Reduction of `Lfu::put` on a miss with eviction (`size == cap`). -/
theorem Lfu.put_miss_evict_eq {K V : Type} [DecidableEq K] [Inhabited K] [Inhabited V]
    (s : LfuState K V) (k : K) (v : V) (nid0 : Nat) (rest : List Nat)
    (hcap : ¬ s.cap ≤ 0) (hub : s.ub = false) (hlk : lookupA s.mp k = none)
    (hsz : s.size = s.cap) (hbkm : s.minFreq ∈ s.bucketKeys)
    (hb : s.buckets s.minFreq = nid0 :: rest) :
    Lfu.put s k v = Lfu.freshInsertState
      { s with buckets := fun g => if g = s.minFreq then rest else s.buckets g,
               mp := eraseA s.mp (s.nodes nid0).key,
               size := s.size - 1 } k v := by
  simp only [Lfu.put, if_neg hcap, hub, Bool.false_eq_true, if_false, hlk, if_pos hsz,
             Lfu.removeLFU, if_pos hbkm, hb, Lfu.insertNewNode, Lfu.freshInsertState,
             eq_self_iff_true, if_true]

/-- `Lfu::put` preserves the invariant (or freezes on overflow). -/
theorem Lfu.put_ok {K V : Type} [DecidableEq K] [Inhabited K] [Inhabited V]
    (s : LfuState K V) (k : K) (v : V) (h : LfuOK s) : LfuOK (Lfu.put s k v) := by
  by_cases hcap : s.cap ≤ 0
  · simpa [Lfu.put, if_pos hcap] using h
  rcases h with hub | hg
  · simp only [Lfu.put, if_neg hcap, hub, if_true]
    exact Or.inl hub
  have hub : s.ub = false := hg.noUb
  cases hlk : lookupA s.mp k with
  | some nid =>
      obtain ⟨hkey, hmem⟩ := hg.mpSound k nid hlk
      have hbk := hg.bucketAlloc _ (List.ne_nil_of_mem hmem)
      by_cases hof : (s.nodes nid).freq + 1 > INTMAX
      · left
        simp only [Lfu.put, if_neg hcap, hub, Bool.false_eq_true, if_false, hlk]
        have hov := Lfu.updateNode_overflow s nid hub hbk hmem hof
        simp [hov]
      · rw [Lfu.put_hit_eq s k v nid hcap hub hlk hbk hmem hof]
        refine Or.inr (Lfu.updateMinFreq_good _ ?_ ?_ ((s.nodes nid).freq + 1) ?_)
        · exact Lfu.hit_core s k nid v s.minFreq hg hlk (by omega)
        · exact lookupA_ne_nil _ _ _ hlk
        · dsimp only
          rw [if_pos rfl]
          simp
  | none =>
      by_cases hsz : s.size = s.cap
      · -- eviction
        have hmpne : s.mp ≠ [] := by
          have := hg.sizeEq
          intro hnil
          rw [hnil] at this
          simp at this
          omega
        have hbm := hg.minFreqMem hmpne
        have hbkm := hg.bucketAlloc _ hbm
        obtain ⟨nid0, rest, hb⟩ : ∃ nid0 rest, s.buckets s.minFreq = nid0 :: rest := by
          cases hbl : s.buckets s.minFreq with
          | nil => exact absurd hbl hbm
          | cons a l => exact ⟨a, l, rfl⟩
        have hlk' : lookupA (eraseA s.mp (s.nodes nid0).key) k = none := by
          rw [lookupA_eraseA_of_nodup s.mp hg.keyNodup]
          by_cases hqk : k = (s.nodes nid0).key
          · rw [if_pos hqk]
          · rw [if_neg hqk]; exact hlk
        rw [Lfu.put_miss_evict_eq s k v nid0 rest hcap hub hlk hsz hbkm hb]
        exact Or.inr (Lfu.fresh_insert_good _ k v (Lfu.removeLFU_core s hg nid0 rest hb) hlk')
      · rw [Lfu.put_miss_noevict_eq s k v hcap hub hlk hsz]
        exact Or.inr (Lfu.fresh_insert_good s k v hg.toLfuCore hlk)

/-- Reduction of `Lfu::get` on a hit without frequency overflow. -/
theorem Lfu.get_hit_eq {K V : Type} [DecidableEq K] [Inhabited K] [Inhabited V]
    (s : LfuState K V) (k : K) (nid : Nat)
    (hub : s.ub = false) (hlk : lookupA s.mp k = some nid)
    (hbk : (s.nodes nid).freq ∈ s.bucketKeys) (hmem : nid ∈ s.buckets (s.nodes nid).freq)
    (hof : ¬ (s.nodes nid).freq + 1 > INTMAX)
    (_hlb : s.minFreq ≤ (s.nodes nid).freq) :
    (Lfu.get s k).2 =
      (if (s.nodes nid).freq = s.minFreq then
        (if (s.buckets (s.nodes nid).freq).erase nid = [] then
          { s with
            nodes := fun i => if i = nid then
                       ⟨(s.nodes nid).key, (s.nodes nid).val, (s.nodes nid).freq + 1⟩
                     else s.nodes i,
            bucketKeys := if (s.nodes nid).freq + 1 ∈ s.bucketKeys then s.bucketKeys
                          else s.bucketKeys ++ [(s.nodes nid).freq + 1],
            buckets := fun g =>
              if g = (s.nodes nid).freq + 1 then s.buckets ((s.nodes nid).freq + 1) ++ [nid]
              else if g = (s.nodes nid).freq then (s.buckets (s.nodes nid).freq).erase nid
              else s.buckets g,
            minFreq := s.minFreq + 1 }
         else
          { s with
            nodes := fun i => if i = nid then
                       ⟨(s.nodes nid).key, (s.nodes nid).val, (s.nodes nid).freq + 1⟩
                     else s.nodes i,
            bucketKeys := if (s.nodes nid).freq + 1 ∈ s.bucketKeys then s.bucketKeys
                          else s.bucketKeys ++ [(s.nodes nid).freq + 1],
            buckets := fun g =>
              if g = (s.nodes nid).freq + 1 then s.buckets ((s.nodes nid).freq + 1) ++ [nid]
              else if g = (s.nodes nid).freq then (s.buckets (s.nodes nid).freq).erase nid
              else s.buckets g })
       else
        { s with
          nodes := fun i => if i = nid then
                     ⟨(s.nodes nid).key, (s.nodes nid).val, (s.nodes nid).freq + 1⟩
                   else s.nodes i,
          bucketKeys := if (s.nodes nid).freq + 1 ∈ s.bucketKeys then s.bucketKeys
                        else s.bucketKeys ++ [(s.nodes nid).freq + 1],
          buckets := fun g =>
            if g = (s.nodes nid).freq + 1 then s.buckets ((s.nodes nid).freq + 1) ++ [nid]
            else if g = (s.nodes nid).freq then (s.buckets (s.nodes nid).freq).erase nid
            else s.buckets g }) := by
  simp only [Lfu.get, hub, Bool.false_eq_true, if_false, hlk]
  rw [Lfu.updateNode_eq s nid hub hbk hmem hof]
  simp only [hub, Bool.false_eq_true, if_false]
  simp only [eq_self_iff_true, if_true, add_sub_cancel_right]
  by_cases hFm : (s.nodes nid).freq = s.minFreq
  · rw [if_pos hFm, if_pos hFm]
    have hin : s.minFreq ∈ (if (s.nodes nid).freq + 1 ∈ s.bucketKeys then s.bucketKeys
        else s.bucketKeys ++ [(s.nodes nid).freq + 1]) := by
      rw [← hFm]
      by_cases h1 : (s.nodes nid).freq + 1 ∈ s.bucketKeys
      · rw [if_pos h1]; exact hbk
      · rw [if_neg h1]; exact List.mem_append_left _ hbk
    rw [if_pos hin]
    have hc1 : ¬ s.minFreq = (s.nodes nid).freq + 1 := by omega
    rw [if_neg hc1, if_pos hFm.symm]
  · rw [if_neg hFm, if_neg hFm]

/-- `Lfu::get` preserves the invariant (or freezes on overflow). -/
theorem Lfu.get_ok {K V : Type} [DecidableEq K] [Inhabited K] [Inhabited V]
    (s : LfuState K V) (k : K) (h : LfuOK s) : LfuOK (Lfu.get s k).2 := by
  rcases h with hub | hg
  · simp only [Lfu.get, hub, if_true]
    exact Or.inl hub
  have hub : s.ub = false := hg.noUb
  cases hlk : lookupA s.mp k with
  | none =>
      simp only [Lfu.get, hub, Bool.false_eq_true, if_false, hlk]
      exact Or.inr hg
  | some nid =>
      obtain ⟨hkey, hmem⟩ := hg.mpSound k nid hlk
      have hbk := hg.bucketAlloc _ (List.ne_nil_of_mem hmem)
      by_cases hof : (s.nodes nid).freq + 1 > INTMAX
      · left
        simp only [Lfu.get, hub, Bool.false_eq_true, if_false, hlk]
        have hov := Lfu.updateNode_overflow s nid hub hbk hmem hof
        simp [hov]
      · rw [Lfu.get_hit_eq s k nid hub hlk hbk hmem hof
              (hg.minFreqLB _ (List.ne_nil_of_mem hmem))]
        by_cases hFm : (s.nodes nid).freq = s.minFreq
        · rw [if_pos hFm]
          by_cases hemp : (s.buckets (s.nodes nid).freq).erase nid = []
          · rw [if_pos hemp]
            exact Or.inr (Lfu.get_hit_bump_good s k nid hg hlk (by omega) hFm hemp)
          · rw [if_neg hemp]
            exact Or.inr (Lfu.get_hit_keep_good s k nid hg hlk (by omega) (fun _ => hemp))
        · rw [if_neg hFm]
          exact Or.inr (Lfu.get_hit_keep_good s k nid hg hlk (by omega)
            (fun h => absurd h hFm))

/-- A freshly constructed `Lfu` is good. -/
theorem Lfu.init_good {K V : Type} [DecidableEq K] [Inhabited K] [Inhabited V] (cap : Int) :
    LfuGood (Lfu.init cap : LfuState K V) := by
  refine { noUb := rfl, keyNodup := by simp [Lfu.init], mpSound := ?_, bucketSound := ?_,
           freqBounds := ?_, bucketNodup := ?_, bucketAlloc := ?_, idFresh := ?_,
           sizeEq := by simp [Lfu.init], minFreqLB := ?_, minFreqMem := ?_,
           minFreqEmpty := ?_ } <;>
    simp [Lfu.init, lookupA]

/-- Running any operation sequence preserves `LfuOK`. -/
theorem runLfu_ok {K V : Type} [DecidableEq K] [Inhabited K] [Inhabited V]
    (ops : List (LfuOp K V)) (s : LfuState K V) (h : LfuOK s) : LfuOK (runLfu ops s) := by
  induction ops generalizing s with
  | nil => exact h
  | cons op rest ih =>
      cases op with
      | put k v => exact ih _ (Lfu.put_ok s k v h)
      | get k => exact ih _ (Lfu.get_ok s k h)

/-- Claim C6, amended: after every public operation sequence on an
`Lfu(cap)` whose run has not performed undefined behaviour, whenever the
key map is non-empty `minFreq` is exactly the minimum frequency over the
non-empty frequency buckets (its own bucket is non-empty and it bounds
every non-empty bucket from below); `minFreq` is never ⊥ — while the map
is empty it simply retains the integer value 1 it was initialised with. -/
theorem lfu_minfreq_true_minimum (cap : Int) (ops : List (LfuOp Nat Nat)) :
    (runLfu ops (Lfu.init cap)).ub = false →
    ((runLfu ops (Lfu.init cap)).mp ≠ [] →
        (runLfu ops (Lfu.init cap)).buckets (runLfu ops (Lfu.init cap)).minFreq ≠ [] ∧
        (∀ f, (runLfu ops (Lfu.init cap)).buckets f ≠ [] →
          (runLfu ops (Lfu.init cap)).minFreq ≤ f)) ∧
    ((runLfu ops (Lfu.init cap)).mp = [] → (runLfu ops (Lfu.init cap)).minFreq = 1) := by
  intro hub
  rcases runLfu_ok ops (Lfu.init cap) (Or.inr (Lfu.init_good cap)) with h | h
  · rw [hub] at h
    exact absurd h (by simp)
  · exact ⟨fun hne => ⟨h.minFreqMem hne, fun f => h.minFreqLB f⟩, h.minFreqEmpty⟩

/-- Claim C6, witness: on `Lfu(2)` after `put(1,5); get(1)` the run is
UB-free and the map is non-empty, so the amended theorem applies: the
`minFreq` bucket is non-empty and `minFreq` is bounded by the (non-empty)
bucket at frequency 2. -/
theorem lfu_minfreq_true_minimum_witness :
    (runLfu [LfuOp.put 1 5, LfuOp.get 1] (Lfu.init 2 : LfuState Nat Nat)).buckets
      (runLfu [LfuOp.put 1 5, LfuOp.get 1] (Lfu.init 2 : LfuState Nat Nat)).minFreq ≠ [] ∧
    (runLfu [LfuOp.put 1 5, LfuOp.get 1] (Lfu.init 2 : LfuState Nat Nat)).minFreq ≤ 2 :=
  ⟨((lfu_minfreq_true_minimum 2 [LfuOp.put 1 5, LfuOp.get 1] (by decide)).1 (by decide)).1,
   ((lfu_minfreq_true_minimum 2 [LfuOp.put 1 5, LfuOp.get 1] (by decide)).1 (by decide)).2
     2 (by decide)⟩

/-! ### The consistent hash ring (claim C9) -/

/-- Invariants of the `Add` replica loop: already-present entries for the
node survive, on success every replica position of the processed range maps
to the node, the node→replicas map is untouched, and the ring only grows by
appended positions. -/
theorem consistentHash.AddReplicas_spec (h : String → Int) (node : String) (m : Nat) :
    ∀ (i : Nat) (s : CHState),
      (∀ p, lookupA s.hashToNode p = some node →
        lookupA (AddReplicas h node m i s).2.hashToNode p = some node) ∧
      ((AddReplicas h node m i s).1 = true →
        ∀ j, i ≤ j → j < i + m →
          lookupA (AddReplicas h node m i s).2.hashToNode (h (node ++ "-" ++ toString j)) =
            some node) ∧
      (AddReplicas h node m i s).2.NodeToReplicaNum = s.NodeToReplicaNum ∧
      (∃ tl, (AddReplicas h node m i s).2.hashRing = s.hashRing ++ tl) := by
  induction m with
  | zero =>
      intro i s
      refine ⟨fun p hp => hp, fun _ j hij hj => ?_, rfl, ⟨[], by simp [AddReplicas]⟩⟩
      omega
  | succ m ih =>
      intro i s
      by_cases hc : (lookupA s.hashToNode (h (node ++ "-" ++ toString i))).isSome
      · refine ⟨?_, ?_, ?_, ?_⟩
        · simp only [AddReplicas, if_pos hc]
          exact fun p hp => hp
        · simp only [AddReplicas, if_pos hc]
          intro hfalse
          exact absurd hfalse (by simp)
        · simp only [AddReplicas, if_pos hc]
        · simp only [AddReplicas, if_pos hc]
          exact ⟨[], by simp⟩
      · have step : AddReplicas h node (m + 1) i s = AddReplicas h node m (i + 1)
            { s with hashToNode := insertA s.hashToNode (h (node ++ "-" ++ toString i)) node,
                     hashRing := s.hashRing ++ [h (node ++ "-" ++ toString i)] } := by
          simp only [AddReplicas, if_neg hc]
        obtain ⟨ih1, ih2, ih3, ih4⟩ := ih (i + 1)
          { s with hashToNode := insertA s.hashToNode (h (node ++ "-" ++ toString i)) node,
                   hashRing := s.hashRing ++ [h (node ++ "-" ++ toString i)] }
        rw [step]
        refine ⟨?_, ?_, ih3, ?_⟩
        · intro p hp
          apply ih1
          dsimp only
          rw [lookupA_insertA]
          by_cases hpq : p = h (node ++ "-" ++ toString i)
          · rw [if_pos hpq]
          · rw [if_neg hpq]; exact hp
        · intro htrue j hij hj
          by_cases hji : j = i
          · subst hji
            apply ih1
            dsimp only
            rw [lookupA_insertA, if_pos rfl]
          · exact ih2 htrue j (by omega) (by omega)
        · obtain ⟨tl, htl⟩ := ih4
          exact ⟨h (node ++ "-" ++ toString i) :: tl, by rw [htl]; simp⟩

/-- Claim C9, counterexample: with the constant hash function, adding node
`"A"` with 2 replicas to the empty ring fails (the second replica position
collides with the first), yet the call leaves the first replica recorded in
the position map and pushed onto the ring — the failed `add` is not atomic
and does not leave the maps and ring as they were. -/
theorem consistentHash_add_not_atomic :
    (consistentHash.Add (fun _ => 0) (consistentHash.init 2 1 5) "A").1 = false ∧
    (consistentHash.Add (fun _ => 0) (consistentHash.init 2 1 5) "A").2.hashToNode =
      [(0, "A")] ∧
    (consistentHash.Add (fun _ => 0) (consistentHash.init 2 1 5) "A").2.hashRing = [0] ∧
    (consistentHash.init 2 1 5).hashToNode = [] := by
  decide

/-- Claim C9, amended: `Add(node)` returns false when some replica
position collides with a position already present; the node→replicas map
is left unchanged, but the replica positions inserted before the collision
persist (the previous ring survives as a prefix of the extended, unsorted
ring) — failure is not atomic.  On success all replica positions map to
the node, node → replicas is recorded, and the ring is sorted. -/
theorem consistentHash_add_spec (h : String → Int) (s : CHState) (node : String) :
    ((consistentHash.Add h s node).1 = true →
        (consistentHash.Add h s node).2.hashRing.Sorted (· ≤ ·) ∧
        (consistentHash.Add h s node).2.NodeToReplicaNum =
          insertA s.NodeToReplicaNum node s.replicaNum ∧
        ∀ i, i < s.replicaNum.toNat →
          lookupA (consistentHash.Add h s node).2.hashToNode (h (node ++ "-" ++ toString i)) =
            some node) ∧
    ((consistentHash.Add h s node).1 = false →
        (consistentHash.Add h s node).2.NodeToReplicaNum = s.NodeToReplicaNum ∧
        ∃ tl, (consistentHash.Add h s node).2.hashRing = s.hashRing ++ tl) := by
  obtain ⟨h1, h2, h3, h4⟩ := consistentHash.AddReplicas_spec h node s.replicaNum.toNat 0 s
  cases hr : (consistentHash.AddReplicas h node s.replicaNum.toNat 0 s).1 with
  | false =>
      constructor
      · intro htrue
        simp only [consistentHash.Add, hr, Bool.false_eq_true, if_false] at htrue
      · intro _
        simp only [consistentHash.Add, hr, Bool.false_eq_true, if_false]
        exact ⟨h3, h4⟩
  | true =>
      constructor
      · intro _
        simp only [consistentHash.Add, hr, if_true]
        refine ⟨List.sorted_insertionSort _ _, ?_, ?_⟩
        · dsimp only
          rw [h3]
        · intro i hi
          exact h2 hr i (by omega) (by omega)
      · intro hfalse
        simp only [consistentHash.Add, hr, if_true, Bool.true_eq_false] at hfalse

/-- Claim C9, witness: a successful `Add` (distinct replica positions)
yields a sorted ring, and the failing constant-hash `Add` leaves the
node→replicas map untouched. -/
theorem consistentHash_add_spec_witness :
    (consistentHash.Add (fun str => if str = "A-0" then 0 else 1)
        (consistentHash.init 2 1 5) "A").2.hashRing.Sorted (· ≤ ·) ∧
    (consistentHash.Add (fun _ => 0) (consistentHash.init 2 1 5) "A").2.NodeToReplicaNum =
      [] :=
  ⟨((consistentHash_add_spec (fun str => if str = "A-0" then 0 else 1)
      (consistentHash.init 2 1 5) "A").1 (by decide)).1,
   ((consistentHash_add_spec (fun _ => 0) (consistentHash.init 2 1 5) "A").2 (by decide)).1⟩

/-- Claim C4, behaviour at the failing input: when the peer picker returns
⊥ (this node is the owner) and the loader would return the value 5, the
coalesced function of `LoadFromPeer` does not invoke the loader and
produces no value; moreover no input at all makes the miss path store a
loaded value into the local cache — the claimed "call `l(k)` directly and
store the result locally" behaviour is absent from the code. -/
theorem cachegroup_owner_path_no_loader :
    (LoadFromPeer Nat none (some 5)).loaderInvoked = false ∧
    (LoadFromPeer Nat none (some 5)).result = none ∧
    (∀ pick loader, (LoadFromPeer Nat pick loader).cacheUpdated = false) := by
  refine ⟨rfl, rfl, ?_⟩
  intro pick loader
  rcases pick with _ | pr
  · rfl
  · rcases pr with _ | v
    · rcases loader with _ | w <;> rfl
    · rfl

/-! ### The single-flight coalescer (claim C5) -/

/-- Unfold `owns` into a phase disjunction. -/
theorem owns_eq_some {K R T : Type} (s : SFState K R T) (t : T) (tid : Nat) :
    s.owns t = some tid ↔ (s.phase t = SFPhase.running tid ∨
      s.phase t = SFPhase.publish tid ∨ s.phase t = SFPhase.cleanup tid) := by
  unfold SFState.owns
  cases hp : s.phase t <;> simp

/-- The create step preserves the invariant. -/
theorem SFInv.create_preserved {K R T : Type} [DecidableEq K] [DecidableEq T]
    (env : SFEnv K R T) (s : SFState K R T) (t : T) (hinv : SFInv env s)
    (hp : s.phase t = SFPhase.start) (hm : s.mapR (env.key t) = none) :
    SFInv env (createStep env s t) := by
  have hmyt : s.myTask t = none := by
    cases hmt : s.myTask t with
    | none => rfl
    | some tid =>
        rcases hinv.taskPhase t tid hmt with h | h | h | h <;> rw [hp] at h <;>
          exact absurd h (by simp)
  refine ⟨?_, ?_, ?_, ?_, ?_, ?_, ?_, ?_, ?_, ?_⟩
  · -- ownsMap
    intro u tid h
    rw [owns_eq_some] at h
    simp only [createStep] at h ⊢
    by_cases hu : u = t
    · subst hu
      simp only [eq_self_iff_true, if_true] at h ⊢
      have htid : tid = s.nextTask := by
        rcases h with h | h | h <;> simp at h
        omega
      subst htid
      exact ⟨rfl, rfl⟩
    · simp only [if_neg hu] at h ⊢
      have hold : s.owns u = some tid := by rw [owns_eq_some]; exact h
      obtain ⟨hmap, htask⟩ := hinv.ownsMap u tid hold
      have hkne : ¬ env.key u = env.key t := by
        intro hk
        rw [hk, hm] at hmap
        exact absurd hmap (by simp)
      rw [if_neg hkne]
      exact ⟨hmap, htask⟩
  · -- mapOwned
    intro k tid h
    simp only [createStep] at h
    by_cases hk : k = env.key t
    · rw [if_pos hk] at h
      have htid : tid = s.nextTask := by simpa using h.symm
      subst htid
      refine ⟨t, ?_, hk.symm⟩
      rw [owns_eq_some]
      left
      simp [createStep]
    · rw [if_neg hk] at h
      obtain ⟨u, hu, hku⟩ := hinv.mapOwned k tid h
      have hut : ¬ u = t := by
        intro hut
        subst hut
        rw [owns_eq_some, hp] at hu
        rcases hu with h' | h' | h' <;> exact absurd h' (by simp)
      refine ⟨u, ?_, hku⟩
      rw [owns_eq_some] at hu ⊢
      simp only [createStep, if_neg hut]
      exact hu
  · -- taskUnique
    intro u w tid hu hw
    simp only [createStep] at hu hw
    by_cases h1 : u = t <;> by_cases h2 : w = t
    · rw [h1, h2]
    · rw [if_pos h1] at hu
      rw [if_neg h2] at hw
      have : tid = s.nextTask := by simpa using hu.symm
      subst this
      have := hinv.taskFresh w _ hw
      omega
    · rw [if_neg h1] at hu
      rw [if_pos h2] at hw
      have : tid = s.nextTask := by simpa using hw.symm
      subst this
      have := hinv.taskFresh u _ hu
      omega
    · rw [if_neg h1] at hu
      rw [if_neg h2] at hw
      exact hinv.taskUnique u w tid hu hw
  · -- taskFresh
    intro u tid hu
    simp only [createStep] at hu ⊢
    by_cases h1 : u = t
    · rw [if_pos h1] at hu
      have : tid = s.nextTask := by simpa using hu.symm
      omega
    · rw [if_neg h1] at hu
      have := hinv.taskFresh u tid hu
      omega
  · -- phaseTask
    intro u tid h
    simp only [createStep] at h ⊢
    by_cases h1 : u = t
    · rw [if_pos h1] at h ⊢
      rcases h with h | h | h | h <;> simp at h
      simp [h]
    · rw [if_neg h1] at h ⊢
      exact hinv.phaseTask u tid h
  · -- taskPhase
    intro u tid hu
    simp only [createStep] at hu ⊢
    by_cases h1 : u = t
    · rw [if_pos h1] at hu ⊢
      have : tid = s.nextTask := by simpa using hu.symm
      simp [this]
    · rw [if_neg h1] at hu ⊢
      exact hinv.taskPhase u tid hu
  · -- promiseUnset
    intro u tid h
    simp only [createStep] at h ⊢
    by_cases h1 : u = t
    · rw [if_pos h1] at h
      have htid : tid = s.nextTask := by
        rcases h with h | h <;> simp at h
        omega
      subst htid
      cases hpr : s.promises s.nextTask with
      | none => rfl
      | some r =>
          obtain ⟨u', hu', _, _⟩ := hinv.promiseOwner _ r hpr
          have := hinv.taskFresh u' _ hu'
          omega
    · rw [if_neg h1] at h
      exact hinv.promiseUnset u tid h
  · -- promiseOwner
    intro tid r h
    simp only [createStep] at h
    obtain ⟨u, hu, hr, hph⟩ := hinv.promiseOwner tid r h
    have hut : ¬ u = t := by
      intro hut
      rw [hut, hmyt] at hu
      exact absurd hu (by simp)
    refine ⟨u, ?_, hr, ?_⟩
    · simp only [createStep, if_neg hut]
      exact hu
    · simp only [createStep, if_neg hut]
      exact hph
  · -- waitTask
    intro u tid h
    simp only [createStep] at h
    by_cases h1 : u = t
    · rw [if_pos h1] at h
      exact absurd h (by simp)
    · rw [if_neg h1] at h
      obtain ⟨w, hw, hkw⟩ := hinv.waitTask u tid h
      have hwt : ¬ w = t := by
        intro hwt
        rw [hwt, hmyt] at hw
        exact absurd hw (by simp)
      refine ⟨w, ?_, hkw⟩
      simp only [createStep, if_neg hwt]
      exact hw
  · -- doneWaitTask
    intro u tid r h
    simp only [createStep] at h
    by_cases h1 : u = t
    · rw [if_pos h1] at h
      exact absurd h (by simp)
    · rw [if_neg h1] at h
      obtain ⟨⟨w, hw, hkw, hr⟩, hpr⟩ := hinv.doneWaitTask u tid r h
      have hwt : ¬ w = t := by
        intro hwt
        rw [hwt, hmyt] at hw
        exact absurd hw (by simp)
      refine ⟨⟨w, ?_, hkw, hr⟩, hpr⟩
      simp only [createStep, if_neg hwt]
      exact hw

/-- The subscribe step preserves the invariant. -/
theorem SFInv.subscribe_preserved {K R T : Type} [DecidableEq K] [DecidableEq T]
    (env : SFEnv K R T) (s : SFState K R T) (t : T) (tid : Nat) (hinv : SFInv env s)
    (hp : s.phase t = SFPhase.start) (hm : s.mapR (env.key t) = some tid) :
    SFInv env (waitStep s t tid) := by
  have hmyt : s.myTask t = none := by
    cases hmt : s.myTask t with
    | none => rfl
    | some tid' =>
        rcases hinv.taskPhase t tid' hmt with h | h | h | h <;> rw [hp] at h <;>
          exact absurd h (by simp)
  have hphase : ∀ u, ¬ u = t → (waitStep s t tid).phase u = s.phase u := by
    intro u hu
    simp only [waitStep, if_neg hu]
  have howns : ∀ u, (waitStep s t tid).owns u = s.owns u := by
    intro u
    by_cases hu : u = t
    · subst hu
      simp [SFState.owns, waitStep, hp]
    · unfold SFState.owns
      rw [hphase u hu]
  refine ⟨?_, ?_, hinv.taskUnique, hinv.taskFresh, ?_, ?_, ?_, ?_, ?_, ?_⟩
  · intro u tid' h
    rw [howns] at h
    exact hinv.ownsMap u tid' h
  · intro k tid' h
    obtain ⟨u, hu, hk⟩ := hinv.mapOwned k tid' h
    exact ⟨u, (howns u).symm ▸ hu, hk⟩
  · intro u tid' h
    by_cases hu : u = t
    · subst hu
      simp only [waitStep, eq_self_iff_true, if_true] at h
      rcases h with h | h | h | h <;> exact absurd h (by simp)
    · rw [hphase u hu] at h
      exact hinv.phaseTask u tid' h
  · intro u tid' hu
    simp only [waitStep] at hu
    by_cases hut : u = t
    · subst hut
      rw [hmyt] at hu
      exact absurd hu (by simp)
    · rw [hphase u hut]
      exact hinv.taskPhase u tid' hu
  · intro u tid' h
    by_cases hu : u = t
    · subst hu
      simp only [waitStep, eq_self_iff_true, if_true] at h
      rcases h with h | h <;> exact absurd h (by simp)
    · rw [hphase u hu] at h
      exact hinv.promiseUnset u tid' h
  · intro tid' r h
    obtain ⟨u, hu, hr, hph⟩ := hinv.promiseOwner tid' r h
    have hut : ¬ u = t := by
      intro hut
      rw [hut, hmyt] at hu
      exact absurd hu (by simp)
    exact ⟨u, hu, hr, (hphase u hut).symm ▸ hph⟩
  · intro u tid' h
    by_cases hu : u = t
    · subst hu
      simp only [waitStep, eq_self_iff_true, if_true] at h
      have htid : tid' = tid := by simpa using h.symm
      subst htid
      obtain ⟨w, hw, hkw⟩ := hinv.mapOwned (env.key u) tid' hm
      exact ⟨w, (hinv.ownsMap w tid' hw).2, hkw⟩
    · rw [hphase u hu] at h
      exact hinv.waitTask u tid' h
  · intro u tid' r h
    by_cases hu : u = t
    · subst hu
      simp only [waitStep, eq_self_iff_true, if_true] at h
      exact absurd h (by simp)
    · rw [hphase u hu] at h
      exact hinv.doneWaitTask u tid' r h

/-- The func-return step preserves the invariant. -/
theorem SFInv.finishFunc_preserved {K R T : Type} [DecidableEq K] [DecidableEq T]
    (env : SFEnv K R T) (s : SFState K R T) (t : T) (tid : Nat) (hinv : SFInv env s)
    (hp : s.phase t = SFPhase.running tid) :
    SFInv env (funcRetStep s t tid) := by
  have hmyt : s.myTask t = some tid := hinv.phaseTask t tid (Or.inl hp)
  have hphase : ∀ u, ¬ u = t → (funcRetStep s t tid).phase u = s.phase u := by
    intro u hu
    simp only [funcRetStep, if_neg hu]
  have hphaset : (funcRetStep s t tid).phase t = SFPhase.publish tid := by
    simp [funcRetStep]
  have howns : ∀ u, (funcRetStep s t tid).owns u = s.owns u := by
    intro u
    by_cases hu : u = t
    · subst hu
      unfold SFState.owns
      rw [hphaset, hp]
    · unfold SFState.owns
      rw [hphase u hu]
  refine ⟨?_, ?_, hinv.taskUnique, hinv.taskFresh, ?_, ?_, ?_, ?_, ?_, ?_⟩
  · intro u tid' h
    rw [howns] at h
    exact hinv.ownsMap u tid' h
  · intro k tid' h
    obtain ⟨u, hu, hk⟩ := hinv.mapOwned k tid' h
    exact ⟨u, (howns u).symm ▸ hu, hk⟩
  · intro u tid' h
    by_cases hu : u = t
    · subst hu
      rw [hphaset] at h  -- hmm h is about phase via disjunction
      rcases h with h | h | h | h
      · exact absurd h (by simp)
      · have : tid' = tid := by simpa using h.symm
        subst this
        exact hmyt
      · exact absurd h (by simp)
      · exact absurd h (by simp)
    · rw [hphase u hu] at h
      exact hinv.phaseTask u tid' h
  · intro u tid' hu
    simp only [funcRetStep] at hu
    by_cases hut : u = t
    · subst hut
      rw [hmyt] at hu
      have : tid' = tid := by simpa using hu.symm
      subst this
      rw [hphaset]
      right; left; rfl
    · rw [hphase u hut]
      exact hinv.taskPhase u tid' hu
  · intro u tid' h
    by_cases hu : u = t
    · subst hu
      rw [hphaset] at h
      have htid : tid' = tid := by
        rcases h with h | h
        · exact absurd h (by simp)
        · simpa using h.symm
      subst htid
      exact hinv.promiseUnset u tid' (Or.inl hp)
    · rw [hphase u hu] at h
      exact hinv.promiseUnset u tid' h
  · intro tid' r h
    obtain ⟨u, hu, hr, hph⟩ := hinv.promiseOwner tid' r h
    have hut : ¬ u = t := by
      intro hut
      subst hut
      rcases hph with h' | h' <;> rw [hp] at h' <;> exact absurd h' (by simp)
    exact ⟨u, hu, hr, (hphase u hut).symm ▸ hph⟩
  · intro u tid' h
    by_cases hu : u = t
    · subst hu
      rw [hphaset] at h
      exact absurd h (by simp)
    · rw [hphase u hu] at h
      exact hinv.waitTask u tid' h
  · intro u tid' r h
    by_cases hu : u = t
    · subst hu
      rw [hphaset] at h
      exact absurd h (by simp)
    · rw [hphase u hu] at h
      exact hinv.doneWaitTask u tid' r h

/-- The set-value (publish) step preserves the invariant. -/
theorem SFInv.setValue_preserved {K R T : Type} [DecidableEq K] [DecidableEq T]
    (env : SFEnv K R T) (s : SFState K R T) (t : T) (tid : Nat) (hinv : SFInv env s)
    (hp : s.phase t = SFPhase.publish tid) :
    SFInv env (publishStep env s t tid) := by
  have hmyt : s.myTask t = some tid := hinv.phaseTask t tid (Or.inr (Or.inl hp))
  have hpnone : s.promises tid = none := hinv.promiseUnset t tid (Or.inr hp)
  have hphase : ∀ u, ¬ u = t → (publishStep env s t tid).phase u = s.phase u := by
    intro u hu
    simp only [publishStep, if_neg hu]
  have hphaset : (publishStep env s t tid).phase t = SFPhase.cleanup tid := by
    simp [publishStep]
  have howns : ∀ u, (publishStep env s t tid).owns u = s.owns u := by
    intro u
    by_cases hu : u = t
    · subst hu
      simp [SFState.owns, publishStep, hp]
    · unfold SFState.owns
      rw [hphase u hu]
  have hprom : ∀ n, ¬ n = tid → (publishStep env s t tid).promises n = s.promises n := by
    intro n hn
    simp only [publishStep, if_neg hn]
  have hpromt : (publishStep env s t tid).promises tid = some (env.fres t) := by
    simp [publishStep]
  refine ⟨?_, ?_, hinv.taskUnique, hinv.taskFresh, ?_, ?_, ?_, ?_, ?_, ?_⟩
  · intro u tid' h
    rw [howns] at h
    exact hinv.ownsMap u tid' h
  · intro k tid' h
    obtain ⟨u, hu, hk⟩ := hinv.mapOwned k tid' h
    exact ⟨u, (howns u).symm ▸ hu, hk⟩
  · intro u tid' h
    by_cases hu : u = t
    · subst hu
      rw [hphaset] at h
      have htid : tid' = tid := by
        rcases h with h | h | h | h
        · exact absurd h (by simp)
        · exact absurd h (by simp)
        · simpa using h.symm
        · exact absurd h (by simp)
      subst htid
      exact hmyt
    · rw [hphase u hu] at h
      exact hinv.phaseTask u tid' h
  · intro u tid' hu
    simp only [publishStep] at hu
    by_cases hut : u = t
    · subst hut
      rw [hmyt] at hu
      have : tid' = tid := by simpa using hu.symm
      subst this
      rw [hphaset]
      right; right; left; rfl
    · rw [hphase u hut]
      exact hinv.taskPhase u tid' hu
  · intro u tid' h
    by_cases hu : u = t
    · subst hu
      rw [hphaset] at h
      rcases h with h | h <;> exact absurd h (by simp)
    · rw [hphase u hu] at h
      by_cases hn : tid' = tid
      · subst hn
        exfalso
        have hmu : s.myTask u = some tid' := by
          rcases h with h' | h'
          · exact hinv.phaseTask u tid' (Or.inl h')
          · exact hinv.phaseTask u tid' (Or.inr (Or.inl h'))
        exact hu (hinv.taskUnique u t tid' hmu hmyt)
      · rw [hprom tid' hn]
        exact hinv.promiseUnset u tid' h
  · intro tid' r h
    by_cases hn : tid' = tid
    · subst hn
      rw [hpromt] at h
      have hr : r = env.fres t := by simpa using h.symm
      refine ⟨t, hmyt, hr, Or.inl hphaset⟩
    · rw [hprom tid' hn] at h
      obtain ⟨u, hu, hr, hph⟩ := hinv.promiseOwner tid' r h
      have hut : ¬ u = t := by
        intro hut
        subst hut
        rcases hph with h' | h' <;> rw [hp] at h' <;> exact absurd h' (by simp)
      exact ⟨u, hu, hr, (hphase u hut).symm ▸ hph⟩
  · intro u tid' h
    by_cases hu : u = t
    · subst hu
      rw [hphaset] at h
      exact absurd h (by simp)
    · rw [hphase u hu] at h
      exact hinv.waitTask u tid' h
  · intro u tid' r h
    by_cases hu : u = t
    · subst hu
      rw [hphaset] at h
      exact absurd h (by simp)
    · rw [hphase u hu] at h
      obtain ⟨hw, hpr⟩ := hinv.doneWaitTask u tid' r h
      have hn : ¬ tid' = tid := by
        intro hn
        rw [hn, hpnone] at hpr
        exact absurd hpr (by simp)
      exact ⟨hw, (hprom tid' hn).symm ▸ hpr⟩

/-- The erase step preserves the invariant. -/
theorem SFInv.eraseKey_preserved {K R T : Type} [DecidableEq K] [DecidableEq T]
    (env : SFEnv K R T) (s : SFState K R T) (t : T) (tid : Nat) (hinv : SFInv env s)
    (hp : s.phase t = SFPhase.cleanup tid) :
    SFInv env (eraseStep env s t tid) := by
  have hmyt : s.myTask t = some tid := hinv.phaseTask t tid (Or.inr (Or.inr (Or.inl hp)))
  have hmapt : s.mapR (env.key t) = some tid := by
    have : s.owns t = some tid := by
      rw [owns_eq_some]
      right; right; exact hp
    exact (hinv.ownsMap t tid this).1
  have hphase : ∀ u, ¬ u = t → (eraseStep env s t tid).phase u = s.phase u := by
    intro u hu
    simp only [eraseStep, if_neg hu]
  have hphaset : (eraseStep env s t tid).phase t = SFPhase.doneOwner tid := by
    simp [eraseStep]
  have hmap : ∀ k, ¬ k = env.key t → (eraseStep env s t tid).mapR k = s.mapR k := by
    intro k hk
    simp only [eraseStep, if_neg hk]
  have hmapkt : (eraseStep env s t tid).mapR (env.key t) = none := by
    simp [eraseStep]
  refine ⟨?_, ?_, hinv.taskUnique, hinv.taskFresh, ?_, ?_, ?_, ?_, ?_, ?_⟩
  · intro u tid' h
    rw [owns_eq_some] at h
    by_cases hu : u = t
    · subst hu
      rw [hphaset] at h
      rcases h with h | h | h <;> exact absurd h (by simp)
    · rw [hphase u hu] at h
      have hold : s.owns u = some tid' := by rw [owns_eq_some]; exact h
      obtain ⟨hmapu, htasku⟩ := hinv.ownsMap u tid' hold
      have hkne : ¬ env.key u = env.key t := by
        intro hk
        rw [hk, hmapt] at hmapu
        have : tid' = tid := by simpa using hmapu.symm
        subst this
        exact hu (hinv.taskUnique u t tid' htasku hmyt)
      rw [hmap _ hkne]
      exact ⟨hmapu, htasku⟩
  · intro k tid' h
    by_cases hk : k = env.key t
    · rw [hk, hmapkt] at h
      exact absurd h (by simp)
    · rw [hmap k hk] at h
      obtain ⟨u, hu, hku⟩ := hinv.mapOwned k tid' h
      have hut : ¬ u = t := by
        intro hut
        rw [hut] at hku
        exact hk (hku ▸ rfl)
      refine ⟨u, ?_, hku⟩
      rw [owns_eq_some] at hu ⊢
      rw [hphase u hut]
      exact hu
  · intro u tid' h
    by_cases hu : u = t
    · subst hu
      rw [hphaset] at h
      have htid : tid' = tid := by
        rcases h with h | h | h | h
        · exact absurd h (by simp)
        · exact absurd h (by simp)
        · exact absurd h (by simp)
        · simpa using h.symm
      subst htid
      exact hmyt
    · rw [hphase u hu] at h
      exact hinv.phaseTask u tid' h
  · intro u tid' hu
    simp only [eraseStep] at hu
    by_cases hut : u = t
    · subst hut
      rw [hmyt] at hu
      have : tid' = tid := by simpa using hu.symm
      subst this
      rw [hphaset]
      right; right; right; rfl
    · rw [hphase u hut]
      exact hinv.taskPhase u tid' hu
  · intro u tid' h
    by_cases hu : u = t
    · subst hu
      rw [hphaset] at h
      rcases h with h | h <;> exact absurd h (by simp)
    · rw [hphase u hu] at h
      exact hinv.promiseUnset u tid' h
  · intro tid' r h
    simp only [eraseStep] at h
    obtain ⟨u, hu, hr, hph⟩ := hinv.promiseOwner tid' r h
    by_cases hut : u = t
    · subst hut
      rw [hmyt] at hu
      have : tid' = tid := by simpa using hu.symm
      subst this
      exact ⟨u, hmyt, hr, Or.inr hphaset⟩
    · exact ⟨u, hu, hr, (hphase u hut).symm ▸ hph⟩
  · intro u tid' h
    by_cases hu : u = t
    · subst hu
      rw [hphaset] at h
      exact absurd h (by simp)
    · rw [hphase u hu] at h
      exact hinv.waitTask u tid' h
  · intro u tid' r h
    by_cases hu : u = t
    · subst hu
      rw [hphaset] at h
      exact absurd h (by simp)
    · rw [hphase u hu] at h
      exact hinv.doneWaitTask u tid' r h

/-- The wait-return step preserves the invariant. -/
theorem SFInv.waitValue_preserved {K R T : Type} [DecidableEq K] [DecidableEq T]
    (env : SFEnv K R T) (s : SFState K R T) (t : T) (tid : Nat) (r : Option R)
    (hinv : SFInv env s) (hp : s.phase t = SFPhase.waiting tid)
    (hpr : s.promises tid = some r) :
    SFInv env (waitDoneStep s t tid r) := by
  have hmyt : s.myTask t = none := by
    cases hmt : s.myTask t with
    | none => rfl
    | some tid' =>
        rcases hinv.taskPhase t tid' hmt with h | h | h | h <;> rw [hp] at h <;>
          exact absurd h (by simp)
  have hphase : ∀ u, ¬ u = t → (waitDoneStep s t tid r).phase u = s.phase u := by
    intro u hu
    simp only [waitDoneStep, if_neg hu]
  have hphaset : (waitDoneStep s t tid r).phase t = SFPhase.doneWaiter tid r := by
    simp [waitDoneStep]
  have howns : ∀ u, (waitDoneStep s t tid r).owns u = s.owns u := by
    intro u
    by_cases hu : u = t
    · subst hu
      simp [SFState.owns, waitDoneStep, hp]
    · unfold SFState.owns
      rw [hphase u hu]
  refine ⟨?_, ?_, hinv.taskUnique, hinv.taskFresh, ?_, ?_, ?_, ?_, ?_, ?_⟩
  · intro u tid' h
    rw [howns] at h
    exact hinv.ownsMap u tid' h
  · intro k tid' h
    obtain ⟨u, hu, hk⟩ := hinv.mapOwned k tid' h
    exact ⟨u, (howns u).symm ▸ hu, hk⟩
  · intro u tid' h
    by_cases hu : u = t
    · subst hu
      rw [hphaset] at h
      rcases h with h | h | h | h <;> exact absurd h (by simp)
    · rw [hphase u hu] at h
      exact hinv.phaseTask u tid' h
  · intro u tid' hu
    simp only [waitDoneStep] at hu
    by_cases hut : u = t
    · subst hut
      rw [hmyt] at hu
      exact absurd hu (by simp)
    · rw [hphase u hut]
      exact hinv.taskPhase u tid' hu
  · intro u tid' h
    by_cases hu : u = t
    · subst hu
      rw [hphaset] at h
      rcases h with h | h <;> exact absurd h (by simp)
    · rw [hphase u hu] at h
      exact hinv.promiseUnset u tid' h
  · intro tid' r' h
    obtain ⟨u, hu, hr, hph⟩ := hinv.promiseOwner tid' r' h
    have hut : ¬ u = t := by
      intro hut
      rw [hut, hmyt] at hu
      exact absurd hu (by simp)
    exact ⟨u, hu, hr, (hphase u hut).symm ▸ hph⟩
  · intro u tid' h
    by_cases hu : u = t
    · subst hu
      rw [hphaset] at h
      exact absurd h (by simp)
    · rw [hphase u hu] at h
      exact hinv.waitTask u tid' h
  · intro u tid' r' h
    by_cases hu : u = t
    · subst hu
      rw [hphaset] at h
      injection h with h1 h2
      obtain ⟨w, hw, hkw⟩ := hinv.waitTask u tid hp
      obtain ⟨w', hw', hr', _⟩ := hinv.promiseOwner tid r hpr
      have hww : w = w' := hinv.taskUnique w w' tid hw hw'
      rw [← h1, ← h2]
      refine ⟨⟨w, hw, hkw, ?_⟩, hpr⟩
      rw [hww]
      exact hr'
    · rw [hphase u hu] at h
      exact hinv.doneWaitTask u tid' r' h

/-- The initial state satisfies the invariant. -/
theorem SFInv.initial {K R T : Type} [DecidableEq K] [DecidableEq T] (env : SFEnv K R T) :
    SFInv env (SFState.init K R T) := by
  constructor <;> intros <;> simp_all [SFState.init, SFState.owns]

/-- Every step preserves the invariant. -/
theorem SFInv.step_preserved {K R T : Type} [DecidableEq K] [DecidableEq T]
    (env : SFEnv K R T) (s s' : SFState K R T) (hinv : SFInv env s)
    (hstep : SFStep env s s') : SFInv env s' := by
  cases hstep with
  | create t hp hm => exact SFInv.create_preserved env s t hinv hp hm
  | subscribe t tid hp hm => exact SFInv.subscribe_preserved env s t tid hinv hp hm
  | finishFunc t tid hp => exact SFInv.finishFunc_preserved env s t tid hinv hp
  | setValue t tid hp => exact SFInv.setValue_preserved env s t tid hinv hp
  | eraseKey t tid hp => exact SFInv.eraseKey_preserved env s t tid hinv hp
  | waitValue t tid r hp hpr => exact SFInv.waitValue_preserved env s t tid r hinv hp hpr

/-- Every reachable state satisfies the invariant. -/
theorem SFReachable.invariant {K R T : Type} [DecidableEq K] [DecidableEq T]
    (env : SFEnv K R T) (s : SFState K R T) (h : SFReachable env s) : SFInv env s := by
  induction h with
  | refl => exact SFInv.initial env
  | tail _ hstep ih => exact SFInv.step_preserved env _ _ ih hstep

/-- Claim C5: in every reachable state of the single-flight model,
(a) at most one execution of the supplied function is in flight per key at
any instant — two distinct threads cannot both be inside `func()` for the
same key; (b) every caller that finishes as a waiter receives exactly the
result of the execution registered under the task it subscribed to
(including an absent result); and (c) whenever the in-flight execution for
a key has completed and been removed from the registry (the map holds no
entry for the key), an arriving call takes the create step and starts a
fresh execution under a task id never used before. -/
theorem singleflight_run_spec {K R T : Type} [DecidableEq K] [DecidableEq T]
    (env : SFEnv K R T) (s : SFState K R T) (h : SFReachable env s) :
    (∀ t u, ¬ t = u → s.inFlight t → s.inFlight u → ¬ env.key t = env.key u) ∧
    (∀ t tid r, s.phase t = SFPhase.doneWaiter tid r →
        ∃ u, s.myTask u = some tid ∧ env.key u = env.key t ∧ r = env.fres u) ∧
    (∀ t, s.phase t = SFPhase.start → s.mapR (env.key t) = none →
        SFStep env s (createStep env s t) ∧
        (createStep env s t).phase t = SFPhase.running s.nextTask ∧
        ∀ u, ¬ s.myTask u = some s.nextTask) := by
  have hinv := SFReachable.invariant env s h
  refine ⟨?_, ?_, ?_⟩
  · intro t u htu hf1 hf2 hk
    obtain ⟨tid1, h1⟩ := hf1
    obtain ⟨tid2, h2⟩ := hf2
    have o1 : s.owns t = some tid1 := by rw [owns_eq_some]; exact Or.inl h1
    have o2 : s.owns u = some tid2 := by rw [owns_eq_some]; exact Or.inl h2
    obtain ⟨m1, t1⟩ := hinv.ownsMap t tid1 o1
    obtain ⟨m2, t2⟩ := hinv.ownsMap u tid2 o2
    rw [hk, m2] at m1
    have htid : tid2 = tid1 := by simpa using m1
    subst htid
    exact htu (hinv.taskUnique t u tid2 t1 t2)
  · intro t tid r hd
    exact (hinv.doneWaitTask t tid r hd).1
  · intro t hp hm
    refine ⟨SFStep.create s t hp hm, ?_, ?_⟩
    · simp [createStep]
    · intro u hu
      have := hinv.taskFresh u _ hu
      omega

/-- Claim C5, witness: from the initial two-thread state (reachable by
the empty run), thread `true` finds no registry entry for its key, so the
create step is enabled and puts it in the in-flight window with the fresh
task id 0. -/
theorem singleflight_run_spec_witness :
    SFStep sfEnvW (SFState.init Nat Nat Bool)
      (createStep sfEnvW (SFState.init Nat Nat Bool) true) ∧
    (createStep sfEnvW (SFState.init Nat Nat Bool) true).phase true = SFPhase.running 0 := by
  have h := (singleflight_run_spec sfEnvW (SFState.init Nat Nat Bool)
    Relation.ReflTransGen.refl).2.2 true rfl rfl
  exact ⟨h.1, h.2.1⟩

/-! ### The ARC engine (claims C1 and C8) -/

/-- Claim C1, behaviour at the failing inputs: `Arc::Arc(C)` hands the FULL
capacity `C` to both halves, so with `C = 2` the two halves' capacities are
2 and 2: their sum is `2C = 4`, not `C = 2`, and neither half starts at
`C/2 = 1`.  Moreover, after the UB-free quiescent operation sequence
`put(1,10); put(2,20); get(1)` the get's promotion copies key 1 into the
frequency half without removing it from the recency half, so the live
totals satisfy `|R.live| + |F.live| = 3 > C = 2`. -/
theorem arc_capacity_doubled_and_live_exceeds_C :
    let s0 : ArcState Nat Nat := Arc.init 2 2
    let s := (Arc.get (Arc.put (Arc.put s0 1 10) 2 20) 1).2
    s0.lruCache.capacity = 2 ∧ s0.lfuCache.capacity = 2 ∧
    ¬ (s0.lruCache.capacity + s0.lfuCache.capacity = 2) ∧
    ¬ (s0.lruCache.capacity = 2 / 2) ∧
    s.lruCache.ub = false ∧ s.lfuCache.ub = false ∧
    s.lruCache.listL.length + s.lfuCache.cacheMap.length = 3 ∧
    ¬ (s.lruCache.listL.length + s.lfuCache.cacheMap.length ≤ 2) := by
  decide

/-- Claim C8, behaviour at the failing input: on `Arc(4, 2)` after
`put(1,10)`, the second `put(1,20)` finds key 1 resident in the recency
half and bumps it to frequency 2 = promotionThreshold, but the update
branch of `ArcLru::put` lacks a `return`: it falls through to
`insertNewMain`, which appends a SECOND node with key 1 to the live list
and overwrites the promotion flag with `insertNewMain`'s constant `false`,
so `Arc::put` never moves the key into the frequency half. -/
theorem arc_put_resident_duplicates_key :
    let s : ArcState Nat Nat := Arc.put (Arc.put (Arc.init 4 2) 1 10) 1 20
    s.lruCache.ub = false ∧ s.lfuCache.ub = false ∧
    s.lruCache.promotionThreshold = 2 ∧ (s.lruCache.nodes 0).freq = 2 ∧
    (s.lruCache.listL.filter (fun nid => (s.lruCache.nodes nid).key == 1)).length = 2 ∧
    lookupA s.lfuCache.cacheMap 1 = none := by
  decide
